import Mathlib

/-!
Verification development for the markdown-stripper application (src/app.py).

The source is a Python script whose processing core is a chain of
`re.sub` calls.  We embed each substitution as an executable scanner over
`List Char`: the scanner walks the text left to right, and at each
position asks a *matcher* whether the source regex matches there.  On a
match the matcher reports the replacement text and the number of input
characters consumed (always at least one for every pattern appearing in
the source); the scanner emits the replacement and resumes after the
consumed characters, exactly like `re.sub`'s global substitution.  On a
failure the scanner keeps the character and moves one position right.

The scanner threads the previously consumed input character through the
walk.  That single piece of state is enough to express both constructs of
the source patterns that look outside the match: the `re.MULTILINE`
anchor `^` (which holds at the start of the text and right after a
newline) and the lookbehinds `(?<!\*)` / `(?<!_)` of the italic rules.
Lookaheads inspect the unconsumed remainder, which the matcher sees.

Python's `\s` (and `str.strip`'s whitespace set) is embedded as the set
of Unicode whitespace characters recognised by CPython. Python's `\d` is
embedded as the ASCII digits; no text in this development uses non-ASCII
digits.  Token counting (tiktoken) is outside the claims and not
embedded.  The UI layer (streamlit) is an external collaborator and is
likewise not embedded; `pct_savings` embeds the statistics expression of
the script with real arithmetic modelled by the rationals.
-/

namespace MarkdownStripper

/-- The whitespace characters matched by Python's `\s` on `str` patterns
(equivalently the characters `ch` with `ch.isspace()`). -/
def pySpaceChars : List Char :=
  ['\t', '\n', '\x0b', '\x0c', '\r', '\x1c', '\x1d', '\x1e', '\x1f', ' ',
   '\u0085', '\u00a0', '\u1680',
   '\u2000', '\u2001', '\u2002', '\u2003', '\u2004', '\u2005', '\u2006',
   '\u2007', '\u2008', '\u2009', '\u200a',
   '\u2028', '\u2029', '\u202f', '\u205f', '\u3000']

/-- `c` is whitespace in the sense of Python's `\s` / `str.strip`. -/
def isPySpace (c : Char) : Bool := pySpaceChars.contains c

/-- The backtick character (code point 96). -/
def btick : Char := Char.ofNat 96

/-- A matcher: given the previously consumed input character (`none` at
the very start of the text) and the remaining input, report `none` when
the regex does not match at this position, and otherwise the replacement
text together with the total number of characters the match consumes. -/
def Matcher : Type := Option Char → List Char → Option (List Char × Nat)

/-- The last character of `u`, or `p` when `u` is empty: the "previous
character" state after additionally consuming `u`. -/
def prevAfter (u : List Char) (p : Option Char) : Option Char :=
  match u.getLast? with
  | some c => some c
  | none => p

/-- The scanner driving a global `re.sub`.  The `Nat` argument is the
number of further input characters still to be consumed by the match
found earlier (the skip state); at `0` the matcher is consulted. -/
def go (m : Matcher) : Nat → Option Char → List Char → List Char
  | _, _, [] => []
  | 0, p, c :: cs =>
    match m p (c :: cs) with
    | some (r, n) => r ++ go m (n - 1) (some c) cs
    | none => c :: go m 0 (some c) cs
  | Nat.succ k, _, c :: cs => go m k (some c) cs

/-- Global substitution of the regex embodied by matcher `m`, from the
start of the text. -/
def subst (m : Matcher) (s : List Char) : List Char := go m 0 none s

/-- The `re.MULTILINE` anchor `^`: start of text or right after `\n`. -/
def atLineStart (p : Option Char) : Bool :=
  match p with
  | none => true
  | some c => c == '\n'

/-! ### TagStripper — `clean_xml_tags` (src/app.py lines 14-20) -/

/-- Matcher for `<[^>]+/>` (self-closing tags).  The closing `>` of the
pattern is necessarily the first `>` after the `<`, so the match exists
exactly when the text up to that `>` ends in `/` and has at least one
character besides the `/`. -/
def mSelfClose : Matcher := fun _ s =>
  match s with
  | c :: cs =>
    if c = '<' then
      let b := cs.takeWhile (· ≠ '>')
      match cs.dropWhile (· ≠ '>') with
      | _ :: _ =>
        if 2 ≤ b.length ∧ b.getLastD ' ' = '/' then some ([], b.length + 2) else none
      | [] => none
    else none
  | [] => none

/-- Matcher for `<[^>]+>` (any remaining angle-bracket tag).  When the
`dropWhile` below is nonempty its head is necessarily the first `>`
after the `<`, which is the `>` the pattern consumes. -/
def mTag : Matcher := fun _ s =>
  match s with
  | c :: cs =>
    if c = '<' then
      let b := cs.takeWhile (· ≠ '>')
      match cs.dropWhile (· ≠ '>') with
      | _ :: _ => if 1 ≤ b.length then some ([], b.length + 2) else none
      | [] => none
    else none
  | [] => none

/-- `clean_xml_tags` from src/app.py: removes self-closing tags, then any
remaining `<...>` tag, keeping the text in between. -/
def clean_xml_tags (text : List Char) : List Char :=
  subst mTag (subst mSelfClose text)

/-! ### CodeFenceHandler — `clean_code_block_markers` (src/app.py lines 22-28) -/

/-- `s` starts with three backticks. -/
def startsFence (s : List Char) : Bool :=
  match s with
  | a :: b :: c :: _ => a == btick && b == btick && c == btick
  | _ => false

/-- Matcher for `^```[^\n]*\n?` with `re.MULTILINE`: an opening fence
line, consumed together with its line break when there is one. -/
def mFenceOpen : Matcher := fun p s =>
  if atLineStart p then
    if startsFence s then
      let rest := s.drop 3
      let b := rest.takeWhile (· ≠ '\n')
      if rest.dropWhile (· ≠ '\n') = [] then some ([], b.length + 3)
      else some ([], b.length + 4)
    else none
  else none

/-- End-of-line in the `re.MULTILINE` sense of `$`: end of text, or a
position standing right before `\n`. -/
def isEol (s : List Char) : Bool :=
  match s with
  | [] => true
  | '\n' :: _ => true
  | _ => false

/-- Greedy search used for `\s*$`: the greatest `k` not exceeding the
first argument such that dropping `k` characters of `rest` lands on an
end of line. -/
def findEol : Nat → List Char → Option Nat
  | 0, rest => if isEol rest then some 0 else none
  | k + 1, rest => if isEol (rest.drop (k + 1)) then some (k + 1) else findEol k rest

/-- Matcher for `^```\s*$` with `re.MULTILINE` (closing fence lines). -/
def mFenceClose : Matcher := fun p s =>
  if atLineStart p then
    if startsFence s then
      let rest := s.drop 3
      match findEol (rest.takeWhile isPySpace).length rest with
      | some k => some ([], k + 3)
      | none => none
    else none
  else none

/-- `clean_code_block_markers` from src/app.py: removes opening fence
lines (with language hint) and closing fence lines, keeping the code. -/
def clean_code_block_markers (text : List Char) : List Char :=
  subst mFenceClose (subst mFenceOpen text)

/-! ### WhitespaceNormalizer — `normalize_whitespace` (src/app.py lines 84-87) -/

/-- Matcher for `\n{3,}`: a maximal run of at least three newlines,
replaced by exactly two. -/
def mCollapse : Matcher := fun _ s =>
  match s with
  | c1 :: c2 :: c3 :: _ =>
    if c1 = '\n' ∧ c2 = '\n' ∧ c3 = '\n' then
      some (['\n', '\n'], (s.takeWhile (· = '\n')).length)
    else none
  | _ => none

/-- Python's `str.strip()`: drop leading and trailing whitespace. -/
def pyStrip (s : List Char) : List Char :=
  ((s.dropWhile isPySpace).reverse.dropWhile isPySpace).reverse

/-- `normalize_whitespace` from src/app.py: collapse runs of three or
more newlines to two, then strip the whole text. -/
def normalize_whitespace (text : List Char) : List Char :=
  pyStrip (subst mCollapse text)

/-! ### MarkdownFormatStripper — `clean_markdown_formatting` (src/app.py lines 30-82) -/

/-- Matcher for `^\s*#{1,6}\s*` with `re.MULTILINE` (heading markers).
The leading and trailing `\s*` are maximal whitespace runs; `#` is not
whitespace, so no backtracking arises, and `{1,6}` greedily takes at
most six `#` characters. -/
def mHeading : Matcher := fun p s =>
  if atLineStart p then
    let w := s.takeWhile isPySpace
    let r := s.dropWhile isPySpace
    let hs := r.takeWhile (· = '#')
    if hs ≠ [] then
      let k := min hs.length 6
      let w2 := (r.drop k).takeWhile isPySpace
      some ([], w.length + k + w2.length)
    else none
  else none

/-- Matcher for a doubled-delimiter emphasis pattern with delimiter `d`:
`\*\*([^*]+)\*\*` (`d = '*'`), `__([^_]+)__` (`d = '_'`) and
`~~([^~]+)~~` (`d = '~'`).  The body is the maximal run free of `d`,
which must be followed by two further `d` characters. -/
def mPair2 (d : Char) : Matcher := fun _ s =>
  match s with
  | a :: b :: cs =>
    if a = d ∧ b = d then
      let body := cs.takeWhile (· ≠ d)
      if body ≠ [] then
        match cs.dropWhile (· ≠ d) with
        | x :: y :: _ => if x = d ∧ y = d then some (body, body.length + 4) else none
        | _ => none
      else none
    else none
  | _ => none

/-- Matcher for the italic patterns `(?<!\*)\*([^*]+)\*(?!\*)`
(`d = '*'`) and `(?<!_)_([^_]+)_(?!_)` (`d = '_'`): a single-delimiter
pair whose opening delimiter must not be preceded by `d` in the input
and whose closing delimiter must not be followed by `d`. -/
def mItalic (d : Char) : Matcher := fun p s =>
  match s with
  | a :: cs =>
    if a = d ∧ p ≠ some d then
      let body := cs.takeWhile (· ≠ d)
      if body ≠ [] then
        match cs.dropWhile (· ≠ d) with
        | _ :: after =>
          match after with
          | x :: _ => if x = d then none else some (body, body.length + 2)
          | [] => some (body, body.length + 2)
        | [] => none
      else none
    else none
  | _ => none

/-- Matcher for a single-delimiter span with delimiter `d`; used with
the backtick for the inline-code pattern.  The backtick pattern of the
source is the one between the horizontal-rule and the unordered-list
substitutions. -/
def mPair1 (d : Char) : Matcher := fun _ s =>
  match s with
  | a :: cs =>
    if a = d then
      let body := cs.takeWhile (· ≠ d)
      if body ≠ [] then
        match cs.dropWhile (· ≠ d) with
        | _ :: _ => some (body, body.length + 2)
        | [] => none
      else none
    else none
  | _ => none

/-- Matcher for `^\s*>\s?` with `re.MULTILINE` (blockquote markers). -/
def mBlockquote : Matcher := fun p s =>
  if atLineStart p then
    let w := s.takeWhile isPySpace
    match s.dropWhile isPySpace with
    | '>' :: r2 =>
      match r2 with
      | c :: _ => if isPySpace c then some ([], w.length + 2) else some ([], w.length + 1)
      | [] => some ([], w.length + 1)
    | _ => none
  else none

/-- Matcher for `\[([^\]]+)\]\([^\)]+\)` (inline links), replaced by the
link text. -/
def mLink : Matcher := fun _ s =>
  match s with
  | '[' :: cs =>
    let b1 := cs.takeWhile (· ≠ ']')
    if b1 ≠ [] then
      match cs.dropWhile (· ≠ ']') with
      | ']' :: '(' :: r2 =>
        let b2 := r2.takeWhile (· ≠ ')')
        if b2 ≠ [] then
          match r2.dropWhile (· ≠ ')') with
          | ')' :: _ => some (b1, b1.length + b2.length + 4)
          | _ => none
        else none
      | _ => none
    else none
  | _ => none

/-- Matcher for `\[([^\]]+)\]\[[^\]]*\]` (reference-style links),
replaced by the link text. -/
def mRefLink : Matcher := fun _ s =>
  match s with
  | '[' :: cs =>
    let b1 := cs.takeWhile (· ≠ ']')
    if b1 ≠ [] then
      match cs.dropWhile (· ≠ ']') with
      | ']' :: '[' :: r2 =>
        let b2 := r2.takeWhile (· ≠ ']')
        match r2.dropWhile (· ≠ ']') with
        | ']' :: _ => some (b1, b1.length + b2.length + 4)
        | _ => none
      | _ => none
    else none
  | _ => none

/-- Matcher for `^\s*\[[^\]]+\]:\s*\S+.*$` with `re.MULTILINE`
(link-definition lines), removed entirely. -/
def mLinkDef : Matcher := fun p s =>
  if atLineStart p then
    let w := s.takeWhile isPySpace
    match s.dropWhile isPySpace with
    | '[' :: r1 =>
      let b1 := r1.takeWhile (· ≠ ']')
      if b1 ≠ [] then
        match r1.dropWhile (· ≠ ']') with
        | ']' :: ':' :: r2 =>
          let w2 := r2.takeWhile isPySpace
          let r3 := r2.dropWhile isPySpace
          let nw := r3.takeWhile (fun c => !(isPySpace c))
          if nw ≠ [] then
            let rol := (r3.drop nw.length).takeWhile (· ≠ '\n')
            some ([], w.length + b1.length + w2.length + nw.length + rol.length + 3)
          else none
        | _ => none
      else none
    | _ => none
  else none

/-- Matcher for `!\[([^\]]*)\]\([^\)]+\)` (images), replaced by the alt
text, which may be empty. -/
def mImage : Matcher := fun _ s =>
  match s with
  | '!' :: '[' :: cs =>
    let b1 := cs.takeWhile (· ≠ ']')
    match cs.dropWhile (· ≠ ']') with
    | ']' :: '(' :: r2 =>
      let b2 := r2.takeWhile (· ≠ ')')
      if b2 ≠ [] then
        match r2.dropWhile (· ≠ ')') with
        | ')' :: _ => some (b1, b1.length + b2.length + 5)
        | _ => none
      else none
    | _ => none
  | _ => none

/-- A character of the horizontal-rule class `[\-\*_]`. -/
def isHrChar (c : Char) : Bool := c == '-' || c == '*' || c == '_'

/-- Matcher for `^[\-\*_]{3,}\s*$` with `re.MULTILINE` (horizontal
rules), removed entirely. -/
def mHr : Matcher := fun p s =>
  if atLineStart p then
    let run := s.takeWhile isHrChar
    if 3 ≤ run.length then
      let rest := s.drop run.length
      match findEol (rest.takeWhile isPySpace).length rest with
      | some k => some ([], run.length + k)
      | none => none
    else none
  else none

/-- A character of the unordered-bullet class `[\*\-\+]`. -/
def isBullet (c : Char) : Bool := c == '*' || c == '-' || c == '+'

/-- Matcher for `^\s*[\*\-\+]\s+` with `re.MULTILINE` (unordered-list
markers). -/
def mUList : Matcher := fun p s =>
  if atLineStart p then
    let w := s.takeWhile isPySpace
    match s.dropWhile isPySpace with
    | c :: r2 =>
      if isBullet c then
        let w2 := r2.takeWhile isPySpace
        if w2 ≠ [] then some ([], w.length + w2.length + 1) else none
      else none
    | [] => none
  else none

/-- Matcher for `^\s*\d+\.\s+` with `re.MULTILINE` (ordered-list
markers). -/
def mOList : Matcher := fun p s =>
  if atLineStart p then
    let w := s.takeWhile isPySpace
    let r := s.dropWhile isPySpace
    let ds := r.takeWhile Char.isDigit
    if ds ≠ [] then
      match r.drop ds.length with
      | '.' :: r2 =>
        let w2 := r2.takeWhile isPySpace
        if w2 ≠ [] then some ([], w.length + ds.length + w2.length + 1) else none
      | _ => none
    else none
  else none

/-- Matcher for `^\s*[\*\-\+]\s*\[[xX ]\]\s*` with `re.MULTILINE`
(task-list markers). -/
def mTask : Matcher := fun p s =>
  if atLineStart p then
    let w := s.takeWhile isPySpace
    match s.dropWhile isPySpace with
    | c :: r2 =>
      if isBullet c then
        let w2 := r2.takeWhile isPySpace
        match r2.dropWhile isPySpace with
        | '[' :: x :: ']' :: r3 =>
          if x = 'x' ∨ x = 'X' ∨ x = ' ' then
            let w3 := r3.takeWhile isPySpace
            some ([], w.length + w2.length + w3.length + 4)
          else none
        | _ => none
      else none
    | [] => none
  else none

/-- Position of the first occurrence of `-->` in the text, when any. -/
def findCloseComment : List Char → Option Nat
  | '-' :: '-' :: '>' :: _ => some 0
  | _ :: cs => (findCloseComment cs).map (· + 1)
  | [] => none

/-- Matcher for `<!--[\s\S]*?-->` (HTML comments): the non-greedy body
runs to the first `-->`. -/
def mComment : Matcher := fun _ s =>
  match s with
  | '<' :: '!' :: '-' :: '-' :: rest =>
    match findCloseComment rest with
    | some i => some ([], i + 7)
    | none => none
  | _ => none

/-- Matcher for `\[\^[^\]]+\]` (footnote references), removed
entirely. -/
def mFootnote : Matcher := fun _ s =>
  match s with
  | '[' :: '^' :: cs =>
    let b := cs.takeWhile (· ≠ ']')
    if b ≠ [] then
      match cs.dropWhile (· ≠ ']') with
      | ']' :: _ => some ([], b.length + 3)
      | _ => none
    else none
  | _ => none

/-- `clean_markdown_formatting` from src/app.py: the eighteen
substitutions of lines 33-80, applied in the order of the source. -/
def clean_markdown_formatting (text : List Char) : List Char :=
  let t1 := subst mHeading text
  let t2 := subst (mPair2 '*') t1
  let t3 := subst (mPair2 '_') t2
  let t4 := subst (mItalic '*') t3
  let t5 := subst (mItalic '_') t4
  let t6 := subst (mPair2 '~') t5
  let t7 := subst mBlockquote t6
  let t8 := subst mLink t7
  let t9 := subst mRefLink t8
  let t10 := subst mLinkDef t9
  let t11 := subst mImage t10
  let t12 := subst mHr t11
  let t13 := subst (mPair1 btick) t12
  let t14 := subst mUList t13
  let t15 := subst mOList t14
  let t16 := subst mTask t15
  let t17 := subst mComment t16
  subst mFootnote t17

/-! ### Pipeline — `process_text` (src/app.py lines 100-119) -/

/-- The settings dictionary driving `process_text`: three independent
boolean flags. -/
structure Settings where
  strip_code_blocks : Bool
  strip_xml : Bool
  strip_markdown : Bool

/-- `process_text` from src/app.py: code-fence stage if enabled, then
tag stage if enabled, then markdown stage if enabled, then whitespace
normalization unconditionally. -/
def process_text (text : List Char) (settings : Settings) : List Char :=
  let p1 := if settings.strip_code_blocks then clean_code_block_markers text else text
  let p2 := if settings.strip_xml then clean_xml_tags p1 else p1
  let p3 := if settings.strip_markdown then clean_markdown_formatting p2 else p2
  normalize_whitespace p3

/-- A stage applied only when its flag is enabled. -/
def stageIf (b : Bool) (f : List Char → List Char) (t : List Char) : List Char :=
  if b then f t else t

/-- The pipeline as the spec words it: the sequential composition
CodeFenceHandler (if enabled), TagStripper (if enabled),
MarkdownFormatStripper (if enabled), WhitespaceNormalizer (always). -/
def pipelineSpec (settings : Settings) (text : List Char) : List Char :=
  normalize_whitespace (stageIf settings.strip_markdown clean_markdown_formatting
    (stageIf settings.strip_xml clean_xml_tags
      (stageIf settings.strip_code_blocks clean_code_block_markers text)))

/-! ### StatsComputer — `pct_savings` (src/app.py lines 210-211) -/

/-- The token delta `orig_tokens - new_tokens` of src/app.py line 210. -/
def tokens_saved (orig_tokens new_tokens : Nat) : Int :=
  (orig_tokens : Int) - (new_tokens : Int)

/-- `pct_savings` from src/app.py line 211:
`(tokens_saved / orig_tokens * 100) if orig_tokens > 0 else 0`, with the
real arithmetic of the script modelled by the rationals. -/
def pct_savings (orig_tokens new_tokens : Nat) : Rat :=
  if 0 < orig_tokens then
    ((tokens_saved orig_tokens new_tokens : Rat)) / (orig_tokens : Rat) * 100
  else 0

/-! ### Line-level view of the text, and the spec-modelled
remove-entirely code-fence policy -/

/-- The text cut into line units: every unit is a line together with its
terminating newline, except that a final line without a newline forms a
unit of its own.  The concatenation of the units is the text. -/
def lineUnits : List Char → List (List Char)
  | [] => []
  | c :: cs =>
    if c = '\n' then ['\n'] :: lineUnits cs
    else
      match lineUnits cs with
      | [] => [[c]]
      | u :: us => (c :: u) :: us

/-- Modelled from the spec: the unit filter of the remove-entirely
code-fence policy, which src/app.py does not contain (src only has the
preserve-content policy of `clean_code_block_markers`).  A fence line
toggles the in-fence state and is dropped; units inside a fence are
dropped; units outside are kept.  An unterminated opening fence
swallows everything to the end of the text (the deterministic choice
the spec asks to be documented). -/
def dropFencedUnits (inFence : Bool) : List (List Char) → List (List Char)
  | [] => []
  | u :: us =>
    if startsFence u then dropFencedUnits (!inFence) us
    else if inFence then dropFencedUnits inFence us
    else u :: dropFencedUnits inFence us

/-- Modelled from the spec: the remove-entirely code-fence policy —
"remove the fence markers and everything between them, including the
code". -/
def remove_code_blocks_entirely (text : List Char) : List Char :=
  (dropFencedUnits false (lineUnits text)).flatten

/-- Modelled from the spec: the two-valued code-fence policy selector of
spec section 6 (`codeFencePolicy: enum{preserve,remove}`). -/
inductive CodeFencePolicy where
  | preserve : CodeFencePolicy
  | remove : CodeFencePolicy

/-- Modelled from the spec: the CodeFenceHandler stage dispatching on
the configured policy; `preserve` is the behaviour in src/app.py,
`remove` the spec-modelled remove-entirely policy. -/
def codeFenceStage : CodeFencePolicy → List Char → List Char
  | CodeFencePolicy.preserve, t => clean_code_block_markers t
  | CodeFencePolicy.remove, t => remove_code_blocks_entirely t

/-- A document assembled from newline-free lines, each line terminated
by a newline. -/
def mkDoc (ls : List (List Char)) : List Char :=
  (ls.map (· ++ ['\n'])).flatten

/-! ### Generic facts about the scanner -/

theorem go_nil (m : Matcher) (k : Nat) (p : Option Char) : go m k p [] = [] := by
  cases k <;> rfl

theorem go_succ (m : Matcher) (k : Nat) (p : Option Char) (c : Char) (cs : List Char) :
    go m (k + 1) p (c :: cs) = go m k (some c) cs := rfl

theorem go_zero_cons (m : Matcher) (p : Option Char) (c : Char) (cs : List Char) :
    go m 0 p (c :: cs) =
      match m p (c :: cs) with
      | some (r, n) => r ++ go m (n - 1) (some c) cs
      | none => c :: go m 0 (some c) cs := rfl

theorem go_zero_cons_none (m : Matcher) (p : Option Char) (c : Char) (cs : List Char)
    (h : m p (c :: cs) = none) :
    go m 0 p (c :: cs) = c :: go m 0 (some c) cs := by
  rw [go_zero_cons, h]

theorem go_zero_cons_some (m : Matcher) (p : Option Char) (c : Char) (cs : List Char)
    (r : List Char) (n : Nat) (h : m p (c :: cs) = some (r, n)) :
    go m 0 p (c :: cs) = r ++ go m (n - 1) (some c) cs := by
  rw [go_zero_cons, h]

theorem prevAfter_nil (p : Option Char) : prevAfter [] p = p := rfl

theorem prevAfter_cons (c : Char) (u : List Char) (p : Option Char) :
    prevAfter (c :: u) p = prevAfter u (some c) := by
  cases u with
  | nil => rfl
  | cons d u' =>
    cases h : (d :: u').getLast? with
    | some x => simp [prevAfter, List.getLast?_cons_cons, h]
    | none => exact absurd (List.getLast?_eq_none_iff.mp h) (by simp)

/-- Skipping `k` characters is the same as restarting the scanner after
them, with the previous-character state advanced accordingly. -/
theorem go_skip (m : Matcher) :
    ∀ (k : Nat) (cs : List Char) (p : Option Char),
      go m k p cs = go m 0 (prevAfter (cs.take k) p) (cs.drop k) := by
  intro k
  induction k with
  | zero => intro cs p; simp [prevAfter]
  | succ n ih =>
    intro cs p
    cases cs with
    | nil => simp [go_nil]
    | cons c cs' =>
      rw [go_succ, ih cs' (some c)]
      simp [List.take_succ_cons, List.drop_succ_cons, prevAfter_cons]

/-- Characters on which the matcher can never fire are copied through
unchanged. -/
theorem go_copy (m : Matcher) (P : Char → Prop)
    (hfail : ∀ p c cs, P c → m p (c :: cs) = none) :
    ∀ (u : List Char) (p : Option Char) (v : List Char), (∀ c ∈ u, P c) →
      go m 0 p (u ++ v) = u ++ go m 0 (prevAfter u p) v := by
  intro u
  induction u with
  | nil => intro p v _; simp [prevAfter]
  | cons c u' ih =>
    intro p v hu
    rw [List.cons_append, go_zero_cons_none m p c _ (hfail p c _ (hu c (by simp))),
      ih (some c) v (fun d hd => hu d (by simp [hd])), prevAfter_cons]
    rfl

/-- A substitution acts as the identity on any text along which a given
invariant keeps the matcher from firing. -/
theorem go_id_of_inv (m : Matcher) (inv : Option Char → List Char → Prop)
    (hnone : ∀ p c cs, inv p (c :: cs) → m p (c :: cs) = none)
    (hstep : ∀ p c cs, inv p (c :: cs) → inv (some c) cs) :
    ∀ (s : List Char) (p : Option Char), inv p s → go m 0 p s = s := by
  intro s
  induction s with
  | nil => intro p _; rfl
  | cons c cs ih =>
    intro p h
    rw [go_zero_cons_none m p c cs (hnone p c cs h), ih (some c) (hstep p c cs h)]

/-- A substitution whose replacements are all empty only ever deletes
characters: its output is a sublist of its input. -/
theorem go_sublist (m : Matcher)
    (hrepl : ∀ p s r n, m p s = some (r, n) → r = []) :
    ∀ (s : List Char) (k : Nat) (p : Option Char), (go m k p s).Sublist s := by
  intro s
  induction s with
  | nil => intro k p; simp [go_nil]
  | cons c cs ih =>
    intro k p
    cases k with
    | succ n => rw [go_succ]; exact (ih n (some c)).cons c
    | zero =>
      rw [go_zero_cons]
      cases h : m p (c :: cs) with
      | none => exact (ih 0 (some c)).cons₂ c
      | some rn =>
        obtain ⟨r, n⟩ := rn
        have hr : r = [] := hrepl p _ r n h
        subst hr
        simpa using (ih (n - 1) (some c)).cons c

/-- Substitutions whose matcher ignores the previous-character state do
not depend on it. -/
theorem go_prev_irrel (m : Matcher) (hm : ∀ p q s, m p s = m q s) :
    ∀ (s : List Char) (k : Nat) (p q : Option Char), go m k p s = go m k q s := by
  intro s
  induction s with
  | nil => intro k p q; simp [go_nil]
  | cons c cs ih =>
    intro k p q
    cases k with
    | succ n => rw [go_succ, go_succ]
    | zero =>
      rw [go_zero_cons, go_zero_cons, hm p q (c :: cs)]

/-! ### Idempotence of TagStripper -/

/-- Invariant of tag-stripped text: every `<` is either immediately
followed by `>` or has no `>` anywhere after it, so that neither tag
pattern can fire anywhere. -/
def tagFree : List Char → Bool
  | [] => true
  | c :: cs =>
    (if c = '<' then (match cs with | d :: _ => d = '>' | [] => true) || !cs.contains '>'
     else true) && tagFree cs

theorem tagFree_step {c : Char} {cs : List Char} (h : tagFree (c :: cs) = true) :
    tagFree cs = true :=
  ((Bool.and_eq_true _ _).mp h).2

theorem tagFree_of_no_gt : ∀ (s : List Char), ('>' ∉ s) → tagFree s = true := by
  intro s
  induction s with
  | nil => intro _; rfl
  | cons c cs ih =>
    intro h
    have h2 : '>' ∉ cs := fun hm => h (List.mem_cons_of_mem c hm)
    simp only [tagFree, Bool.and_eq_true]
    refine ⟨?_, ih h2⟩
    split
    · refine (Bool.or_eq_true _ _).mpr (Or.inr ?_)
      simpa using h2
    · rfl

theorem mTag_cons_lt (p : Option Char) (cs : List Char) :
    mTag p ('<' :: cs) =
      (match cs.dropWhile (· ≠ '>') with
       | _ :: _ =>
         if 1 ≤ (cs.takeWhile (· ≠ '>')).length then
           some ([], (cs.takeWhile (· ≠ '>')).length + 2)
         else none
       | [] => none) := by
  simp [mTag]

theorem mTag_cons_ne (p : Option Char) {c : Char} (cs : List Char) (hc : c ≠ '<') :
    mTag p (c :: cs) = none := by
  simp [mTag, hc]

theorem mSelfClose_cons_lt (p : Option Char) (cs : List Char) :
    mSelfClose p ('<' :: cs) =
      (match cs.dropWhile (· ≠ '>') with
       | _ :: _ =>
         if 2 ≤ (cs.takeWhile (· ≠ '>')).length ∧
             (cs.takeWhile (· ≠ '>')).getLastD ' ' = '/' then
           some ([], (cs.takeWhile (· ≠ '>')).length + 2)
         else none
       | [] => none) := by
  simp [mSelfClose]

theorem mSelfClose_cons_ne (p : Option Char) {c : Char} (cs : List Char) (hc : c ≠ '<') :
    mSelfClose p (c :: cs) = none := by
  simp [mSelfClose, hc]

theorem no_gt_dropWhile {l : List Char} (h : '>' ∉ l) : l.dropWhile (· ≠ '>') = [] := by
  refine List.dropWhile_eq_nil_iff.mpr ?_
  intro x hx
  have hxne : x ≠ '>' := fun he => h (he ▸ hx)
  simpa using hxne

theorem mTag_none_of_tagFree (p : Option Char) {c : Char} {cs : List Char}
    (h : tagFree (c :: cs) = true) : mTag p (c :: cs) = none := by
  by_cases hc : c = '<'
  · subst hc
    have hcond := ((Bool.and_eq_true _ _).mp h).1
    rw [if_pos rfl] at hcond
    rw [mTag_cons_lt]
    cases cs with
    | nil => rfl
    | cons d cs' =>
      rcases (Bool.or_eq_true _ _).mp hcond with hd | hng
      · have hd' : d = '>' := by simpa using hd
        subst hd'
        rw [List.dropWhile_cons_of_neg (by simp), List.takeWhile_cons_of_neg (by simp)]
        rfl
      · have hng' : '>' ∉ (d :: cs') := by simpa using hng
        rw [no_gt_dropWhile hng']
  · exact mTag_cons_ne p cs hc

theorem mSelfClose_none_of_tagFree (p : Option Char) {c : Char} {cs : List Char}
    (h : tagFree (c :: cs) = true) : mSelfClose p (c :: cs) = none := by
  by_cases hc : c = '<'
  · subst hc
    have hcond := ((Bool.and_eq_true _ _).mp h).1
    rw [if_pos rfl] at hcond
    rw [mSelfClose_cons_lt]
    cases cs with
    | nil => rfl
    | cons d cs' =>
      rcases (Bool.or_eq_true _ _).mp hcond with hd | hng
      · have hd' : d = '>' := by simpa using hd
        subst hd'
        rw [List.dropWhile_cons_of_neg (by simp), List.takeWhile_cons_of_neg (by simp)]
        rfl
      · have hng' : '>' ∉ (d :: cs') := by simpa using hng
        rw [no_gt_dropWhile hng']
  · exact mSelfClose_cons_ne p cs hc

theorem subst_mTag_id_of_tagFree {s : List Char} (h : tagFree s = true) :
    subst mTag s = s :=
  go_id_of_inv mTag (fun _ t => tagFree t = true)
    (fun p c cs hi => mTag_none_of_tagFree p hi)
    (fun _ c cs hi => tagFree_step hi) s none h

theorem subst_mSelfClose_id_of_tagFree {s : List Char} (h : tagFree s = true) :
    subst mSelfClose s = s :=
  go_id_of_inv mSelfClose (fun _ t => tagFree t = true)
    (fun p c cs hi => mSelfClose_none_of_tagFree p hi)
    (fun _ c cs hi => tagFree_step hi) s none h

theorem mTag_some_repl {p : Option Char} {s r : List Char} {n : Nat}
    (h : mTag p s = some (r, n)) : r = [] := by
  cases s with
  | nil => exact absurd h (by simp [mTag])
  | cons c cs =>
    by_cases hc : c = '<'
    · subst hc
      rw [mTag_cons_lt] at h
      cases hdw : cs.dropWhile (· ≠ '>') with
      | nil => rw [hdw] at h; simp at h
      | cons x xs =>
        rw [hdw] at h
        have h2 : (if 1 ≤ (cs.takeWhile (· ≠ '>')).length then
            some (([] : List Char), (cs.takeWhile (· ≠ '>')).length + 2)
          else none) = some (r, n) := h
        split at h2
        · simp only [Option.some.injEq, Prod.mk.injEq] at h2
          exact h2.1.symm
        · simp at h2
    · rw [mTag_cons_ne p cs hc] at h; simp at h

/-- The output of the second tag pass always satisfies the invariant. -/
theorem tagFree_go_mTag : ∀ (s : List Char) (k : Nat) (p : Option Char),
    tagFree (go mTag k p s) = true := by
  intro s
  induction s with
  | nil => intro k p; rw [go_nil]; rfl
  | cons c cs ih =>
    intro k p
    cases k with
    | succ n => rw [go_succ]; exact ih n (some c)
    | zero =>
      cases h : mTag p (c :: cs) with
      | some rn =>
        obtain ⟨r, n⟩ := rn
        have hr : r = [] := mTag_some_repl h
        subst hr
        rw [go_zero_cons_some mTag p c cs [] n h, List.nil_append]
        exact ih (n - 1) (some c)
      | none =>
        rw [go_zero_cons_none mTag p c cs h]
        by_cases hc : c = '<'
        · subst hc
          cases cs with
          | nil => rw [go_nil]; rfl
          | cons d cs' =>
            by_cases hd : d = '>'
            · subst hd
              have hgo : go mTag 0 (some '<') ('>' :: cs') = '>' :: go mTag 0 (some '>') cs' :=
                go_zero_cons_none mTag (some '<') '>' cs' (mTag_cons_ne _ _ (by decide))
              have h2 := ih 0 (some '<')
              rw [hgo] at h2 ⊢
              simp only [tagFree, Bool.and_eq_true] at h2 ⊢
              exact ⟨by simp, h2⟩
            · -- the matcher failed although the head of `cs` is not `>`,
              -- so `cs` contains no `>` at all
              have hdw : (d :: cs').dropWhile (· ≠ '>') = [] := by
                cases hdw : (d :: cs').dropWhile (· ≠ '>') with
                | nil => rfl
                | cons x xs =>
                  exfalso
                  have hb : 1 ≤ ((d :: cs').takeWhile (· ≠ '>')).length := by
                    rw [List.takeWhile_cons_of_pos (by simpa using hd)]
                    simp
                  rw [mTag_cons_lt, hdw, if_pos hb] at h
                  simp at h
              have hng : '>' ∉ (d :: cs') := by
                intro hm
                have := List.dropWhile_eq_nil_iff.mp hdw '>' hm
                simp at this
              have hout : '>' ∉ go mTag 0 (some '<') (d :: cs') := fun hm =>
                hng ((go_sublist mTag (fun p s r n hh => mTag_some_repl hh)
                  (d :: cs') 0 (some '<')).subset hm)
              simp only [tagFree, Bool.and_eq_true]
              refine ⟨?_, ih 0 (some '<')⟩
              rw [if_pos trivial]
              refine (Bool.or_eq_true _ _).mpr (Or.inr ?_)
              simpa using hout
        · simp only [tagFree, Bool.and_eq_true]
          exact ⟨by simp [hc], ih 0 (some c)⟩

/-- TagStripper output satisfies the invariant. -/
theorem tagFree_clean_xml_tags (t : List Char) : tagFree (clean_xml_tags t) = true :=
  tagFree_go_mTag (subst mSelfClose t) 0 none

/-- TagStripper is idempotent. -/
theorem clean_xml_tags_idem (t : List Char) :
    clean_xml_tags (clean_xml_tags t) = clean_xml_tags t := by
  have h := tagFree_clean_xml_tags t
  show subst mTag (subst mSelfClose (clean_xml_tags t)) = clean_xml_tags t
  rw [subst_mSelfClose_id_of_tagFree h, subst_mTag_id_of_tagFree h]

/-! ### Idempotence of WhitespaceNormalizer -/

/-- The head of the text is a newline. -/
def headNl : List Char → Bool
  | c :: _ => c == '\n'
  | [] => false

theorem headNl_congr {l l' : List Char} (h : l.head? = l'.head?) : headNl l = headNl l' := by
  cases l <;> cases l' <;> simp_all [headNl]

/-- Invariant of collapsed text: no three consecutive newlines. -/
def no3 : List Char → Bool
  | [] => true
  | c :: cs => !(c == '\n' && headNl cs && headNl cs.tail) && no3 cs

theorem no3_tail {c : Char} {cs : List Char} (h : no3 (c :: cs) = true) : no3 cs = true :=
  ((Bool.and_eq_true _ _).mp h).2

theorem drop_length_takeWhile (l : List Char) (q : Char → Bool) :
    l.drop (l.takeWhile q).length = l.dropWhile q := by
  induction l with
  | nil => rfl
  | cons a l ih =>
    by_cases h : q a
    · rw [List.takeWhile_cons_of_pos h, List.dropWhile_cons_of_pos h]
      simpa using ih
    · rw [List.takeWhile_cons_of_neg h, List.dropWhile_cons_of_neg h]
      rfl

theorem mCollapse_none_of_no3 {p : Option Char} {c : Char} {cs : List Char}
    (h : no3 (c :: cs) = true) : mCollapse p (c :: cs) = none := by
  match cs with
  | [] => rfl
  | [c2] => rfl
  | c2 :: c3 :: rest =>
    have hw := ((Bool.and_eq_true _ _).mp h).1
    have : ¬(c = '\n' ∧ c2 = '\n' ∧ c3 = '\n') := by
      rintro ⟨h1, h2, h3⟩
      subst h1; subst h2; subst h3
      simp [headNl] at hw
    exact if_neg this

theorem mCollapse_some_elim {p : Option Char} {s r : List Char} {n : Nat}
    (h : mCollapse p s = some (r, n)) :
    r = ['\n', '\n'] ∧ n = (s.takeWhile (· = '\n')).length ∧
      ∃ rest, s = '\n' :: '\n' :: '\n' :: rest := by
  match s with
  | [] => exact absurd h (by simp [mCollapse])
  | [c1] => exact absurd h (by simp [mCollapse])
  | [c1, c2] => exact absurd h (by simp [mCollapse])
  | c1 :: c2 :: c3 :: rest =>
    by_cases hc : c1 = '\n' ∧ c2 = '\n' ∧ c3 = '\n'
    · obtain ⟨h1, h2, h3⟩ := hc
      subst h1; subst h2; subst h3
      have hcond : ('\n' : Char) = '\n' ∧ ('\n' : Char) = '\n' ∧ ('\n' : Char) = '\n' :=
        ⟨rfl, rfl, rfl⟩
      have hval : mCollapse p ('\n' :: '\n' :: '\n' :: rest) = some (['\n', '\n'],
          (('\n' :: '\n' :: '\n' :: rest).takeWhile (· = '\n')).length) :=
        @if_pos _ _ hcond _ _ none
      rw [hval] at h
      simp only [Option.some.injEq, Prod.mk.injEq] at h
      exact ⟨h.1.symm, h.2.symm, rest, rfl⟩
    · have : mCollapse p (c1 :: c2 :: c3 :: rest) = none := if_neg hc
      rw [this] at h
      exact absurd h (by simp)

theorem mCollapse_repl {p : Option Char} {s r : List Char} {n : Nat}
    (h : mCollapse p s = some (r, n)) : r = ['\n', '\n'] :=
  (mCollapse_some_elim h).1

theorem head?_go_mCollapse (s : List Char) (p : Option Char) :
    (go mCollapse 0 p s).head? = s.head? := by
  cases s with
  | nil => rfl
  | cons c cs =>
    cases h : mCollapse p (c :: cs) with
    | none => rw [go_zero_cons_none _ _ _ _ h]; rfl
    | some rn =>
      obtain ⟨r, n⟩ := rn
      obtain ⟨hr, _, rest, hs⟩ := mCollapse_some_elim h
      subst hr
      rw [go_zero_cons_some _ _ _ _ _ _ h]
      have hc : c = '\n' := by
        have := congrArg List.head? hs
        simpa using this
      subst hc
      rfl

/-- The output of the newline-collapsing pass never contains three
consecutive newlines. -/
theorem no3_go_mCollapse : ∀ (N : Nat) (s : List Char), s.length ≤ N →
    ∀ (k : Nat) (p : Option Char), no3 (go mCollapse k p s) = true := by
  intro N
  induction N with
  | zero =>
    intro s hs k p
    have : s = [] := List.length_eq_zero.mp (Nat.le_zero.mp hs)
    subst this
    rw [go_nil]
    rfl
  | succ N ih =>
    intro s hs k p
    cases s with
    | nil => rw [go_nil]; rfl
    | cons c cs =>
      have hcs : cs.length ≤ N := by simpa using Nat.succ_le_succ_iff.mp hs
      cases k with
      | succ j => rw [go_succ]; exact ih cs hcs j (some c)
      | zero =>
        cases h : mCollapse p (c :: cs) with
        | some rn =>
          obtain ⟨r, n⟩ := rn
          obtain ⟨hr, hn, rest, hs'⟩ := mCollapse_some_elim h
          subst hr
          rw [go_zero_cons_some _ _ _ _ _ _ h, go_skip]
          have hn3 : 3 ≤ n := by
            rw [hn, hs']
            rw [List.takeWhile_cons_of_pos (by simp), List.takeWhile_cons_of_pos (by simp),
              List.takeWhile_cons_of_pos (by simp)]
            simp
          have hdrop : cs.drop (n - 1) = (c :: cs).dropWhile (· = '\n') := by
            have h1 : (c :: cs).drop n = (c :: cs).dropWhile (· = '\n') := by
              rw [hn]; exact drop_length_takeWhile _ _
            have h2 : n = (n - 1) + 1 := (Nat.succ_pred_eq_of_pos (by omega)).symm
            rw [h2, List.drop_succ_cons] at h1
            exact h1
          rw [hdrop]
          have hhead : headNl (go mCollapse 0
              (prevAfter (cs.take (n - 1)) (some c)) ((c :: cs).dropWhile (· = '\n'))) = false := by
            rw [headNl_congr (head?_go_mCollapse _ _)]
            have := List.head?_dropWhile_not (· = '\n') (c :: cs)
            cases hdw : ((c :: cs).dropWhile (· = '\n')).head? with
            | none =>
              cases hl : (c :: cs).dropWhile (· = '\n') with
              | nil => rfl
              | cons x xs => rw [hl] at hdw; simp at hdw
            | some x =>
              rw [hdw] at this
              cases hl : (c :: cs).dropWhile (· = '\n') with
              | nil => rfl
              | cons y ys =>
                rw [hl] at hdw
                simp only [List.head?_cons, Option.some.injEq] at hdw
                subst hdw
                simpa [headNl] using this
          set w := go mCollapse 0
            (prevAfter (cs.take (n - 1)) (some c)) ((c :: cs).dropWhile (· = '\n')) with hw
          have hno3w : no3 w = true := by
            rw [hw]
            refine ih _ ?_ 0 _
            calc ((c :: cs).dropWhile (· = '\n')).length
                = (cs.drop (n - 1)).length := by rw [hdrop]
              _ ≤ cs.length := by simp [List.length_drop]
              _ ≤ N := hcs
          show no3 ('\n' :: '\n' :: w) = true
          simp only [no3, List.tail_cons, Bool.and_eq_true, Bool.not_eq_true']
          refine ⟨?_, ?_, hno3w⟩
          · exact hhead
          · show (headNl w && headNl w.tail) = false
            rw [hhead, Bool.false_and]
        | none =>
          rw [go_zero_cons_none _ _ _ _ h]
          have hout : no3 (go mCollapse 0 (some c) cs) = true := ih cs hcs 0 (some c)
          simp only [no3, Bool.and_eq_true, Bool.not_eq_true']
          refine ⟨?_, hout⟩
          by_cases hc : c = '\n'
          · subst hc
            cases cs with
            | nil => simp [go_nil, headNl]
            | cons d cs' =>
              by_cases hd : d = '\n'
              · subst hd
                have hcs' : headNl cs' = false := by
                  cases cs' with
                  | nil => rfl
                  | cons e cs'' =>
                    by_cases he : e = '\n'
                    · subst he
                      exact absurd h (by simp [mCollapse])
                    · simpa [headNl] using he
                have hnone : mCollapse (some '\n') ('\n' :: cs') = none := by
                  cases cs' with
                  | nil => rfl
                  | cons e cs'' =>
                    cases cs'' with
                    | nil => rfl
                    | cons f cs3 =>
                      refine if_neg ?_
                      rintro ⟨_, h2, _⟩
                      rw [h2] at hcs'
                      simp [headNl] at hcs'
                rw [go_zero_cons_none _ _ _ _ hnone]
                have hgo : headNl (go mCollapse 0 (some '\n') cs') = false := by
                  rw [headNl_congr (head?_go_mCollapse _ _)]
                  exact hcs'
                show (('\n' : Char) == '\n' && headNl ('\n' :: go mCollapse 0 (some '\n') cs') &&
                    headNl (go mCollapse 0 (some '\n') cs')) = false
                rw [hgo, Bool.and_false]
              · have hgo : headNl (go mCollapse 0 (some '\n') (d :: cs')) = false := by
                  rw [headNl_congr (head?_go_mCollapse _ _)]
                  simpa [headNl] using hd
                show (('\n' : Char) == '\n' && headNl (go mCollapse 0 (some '\n') (d :: cs')) &&
                    headNl (go mCollapse 0 (some '\n') (d :: cs')).tail) = false
                rw [hgo, Bool.and_false, Bool.false_and]
          · simp [hc]

theorem subst_mCollapse_id_of_no3 {s : List Char} (h : no3 s = true) :
    subst mCollapse s = s :=
  go_id_of_inv mCollapse (fun _ t => no3 t = true)
    (fun p c cs hi => mCollapse_none_of_no3 hi)
    (fun _ c cs hi => no3_tail hi) s none h

theorem no3_dropWhile {l : List Char} (q : Char → Bool) (h : no3 l = true) :
    no3 (l.dropWhile q) = true := by
  induction l with
  | nil => exact h
  | cons a l ih =>
    by_cases hq : q a
    · rw [List.dropWhile_cons_of_pos hq]
      exact ih (no3_tail h)
    · rw [List.dropWhile_cons_of_neg hq]
      exact h

theorem no3_append_left : ∀ (u v : List Char), no3 (u ++ v) = true → no3 u = true := by
  intro u
  induction u with
  | nil => intro v _; rfl
  | cons c u' ih =>
    intro v h
    have h' : no3 (c :: (u' ++ v)) = true := h
    have hwin := ((Bool.and_eq_true _ _).mp h').1
    have htail : no3 u' = true := ih v (no3_tail h')
    simp only [no3, Bool.and_eq_true]
    refine ⟨?_, htail⟩
    match u' with
    | [] => simp [headNl]
    | [d] => simp [headNl]
    | d :: e :: u'' =>
      have h1 : headNl ((d :: e :: u'') ++ v) = headNl (d :: e :: u'') := rfl
      have h2 : headNl ((d :: e :: u'') ++ v).tail = headNl (d :: e :: u'').tail := rfl
      rw [← h1, ← h2]
      exact hwin

/-- `pyStrip` produces a prefix of a suffix, so it preserves the
invariant. -/
theorem no3_pyStrip {s : List Char} (h : no3 s = true) : no3 (pyStrip s) = true := by
  have h1 : no3 (s.dropWhile isPySpace) = true := no3_dropWhile isPySpace h
  set u := s.dropWhile isPySpace with hu
  have hsplit : u = pyStrip s ++ (u.reverse.takeWhile isPySpace).reverse := by
    have := List.takeWhile_append_dropWhile (p := isPySpace) (l := u.reverse)
    have h2 := congrArg List.reverse this
    rw [List.reverse_append, List.reverse_reverse] at h2
    exact h2.symm
  exact no3_append_left _ _ (hsplit ▸ h1)

theorem dropWhile_dropWhile (l : List Char) (q : Char → Bool) :
    (l.dropWhile q).dropWhile q = l.dropWhile q := by
  induction l with
  | nil => rfl
  | cons a l ih =>
    by_cases hq : q a
    · rw [List.dropWhile_cons_of_pos hq]; exact ih
    · rw [List.dropWhile_cons_of_neg hq, List.dropWhile_cons_of_neg hq]

theorem pyStrip_idem (s : List Char) : pyStrip (pyStrip s) = pyStrip s := by
  set u := s.dropWhile isPySpace with hu
  have hsplit : u = pyStrip s ++ (u.reverse.takeWhile isPySpace).reverse := by
    have := List.takeWhile_append_dropWhile (p := isPySpace) (l := u.reverse)
    have h2 := congrArg List.reverse this
    rw [List.reverse_append, List.reverse_reverse] at h2
    exact h2.symm
  have hdw : (pyStrip s).dropWhile isPySpace = pyStrip s := by
    cases hps : pyStrip s with
    | nil => rfl
    | cons c t2' =>
      have hcu : u.head? = some c := by
        rw [hsplit, hps]
        rfl
      have hcfail : isPySpace c = false := by
        have := List.head?_dropWhile_not isPySpace s
        rw [← hu, hcu] at this
        exact this
      rw [List.dropWhile_cons_of_neg (by simp [hcfail])]
  have hrev : (pyStrip s).reverse = u.reverse.dropWhile isPySpace := by
    show (((s.dropWhile isPySpace).reverse.dropWhile isPySpace).reverse).reverse = _
    rw [List.reverse_reverse, hu]
  show (((pyStrip s).dropWhile isPySpace).reverse.dropWhile isPySpace).reverse = pyStrip s
  rw [hdw, hrev, dropWhile_dropWhile, ← hrev, List.reverse_reverse]

/-- WhitespaceNormalizer is idempotent. -/
theorem normalize_whitespace_idem (t : List Char) :
    normalize_whitespace (normalize_whitespace t) = normalize_whitespace t := by
  show pyStrip (subst mCollapse (pyStrip (subst mCollapse t))) = pyStrip (subst mCollapse t)
  have h1 : no3 (subst mCollapse t) = true :=
    no3_go_mCollapse (t.length) t (Nat.le_refl _) 0 none
  have h2 : no3 (pyStrip (subst mCollapse t)) = true := no3_pyStrip h1
  rw [subst_mCollapse_id_of_no3 h2, pyStrip_idem]

/-! ### The code-fence pass removes exactly the fence lines -/

theorem startsFence_false_of_head {c : Char} (hc : (c == btick) = false) (w : List Char) :
    startsFence (c :: w) = false := by
  cases w with
  | nil => rfl
  | cons x w' =>
    cases w' with
    | nil => rfl
    | cons y w'' => simp [startsFence, hc]

/-- Whether a line unit opens with three backticks does not depend on
what follows its newline. -/
theorem startsFence_line (l : List Char) (w : List Char) :
    startsFence (l ++ '\n' :: w) = startsFence (l ++ ['\n']) := by
  match l with
  | [] =>
    rw [List.nil_append, List.nil_append,
      startsFence_false_of_head (by decide) w, startsFence_false_of_head (by decide) []]
  | [a] =>
    show startsFence (a :: '\n' :: w) = startsFence (a :: ['\n'])
    cases w with
    | nil => rfl
    | cons x w' =>
      have h : (('\n' : Char) == btick) = false := by decide
      simp [startsFence, h]
  | [a, b] => rfl
  | a :: b :: c :: l' => rfl

theorem lineUnits_no_nl : ∀ (t : List Char), t ≠ [] → '\n' ∉ t → lineUnits t = [t] := by
  intro t
  induction t with
  | nil => intro h _; exact absurd rfl h
  | cons c cs ih =>
    intro _ hnl
    have hc : c ≠ '\n' := fun he => hnl (he ▸ List.mem_cons_self c cs)
    simp only [lineUnits, if_neg hc]
    cases hcs : cs with
    | nil => simp [lineUnits]
    | cons d cs' =>
      rw [← hcs, ih (by simp [hcs]) (fun hm => hnl (List.mem_cons_of_mem c hm))]

theorem lineUnits_append_nl : ∀ (l : List Char), '\n' ∉ l →
    ∀ (r : List Char), lineUnits (l ++ '\n' :: r) = (l ++ ['\n']) :: lineUnits r := by
  intro l
  induction l with
  | nil => intro _ r; simp [lineUnits]
  | cons c l' ih =>
    intro hnl r
    have hc : c ≠ '\n' := fun he => hnl (he ▸ List.mem_cons_self c l')
    have h2 : '\n' ∉ l' := fun hm => hnl (List.mem_cons_of_mem c hm)
    show lineUnits (c :: (l' ++ '\n' :: r)) = ((c :: l') ++ ['\n']) :: lineUnits r
    simp only [lineUnits, if_neg hc, ih h2 r]
    rfl

theorem mFenceOpen_anchor (p : Option Char) (s : List Char) (h : atLineStart p = false) :
    mFenceOpen p s = none := by
  simp [mFenceOpen, h]

theorem mFenceOpen_not_fence (p : Option Char) {s : List Char} (h : startsFence s = false) :
    mFenceOpen p s = none := by
  simp [mFenceOpen, h]

theorem mFenceClose_anchor (p : Option Char) (s : List Char) (h : atLineStart p = false) :
    mFenceClose p s = none := by
  simp [mFenceClose, h]

theorem mFenceClose_not_fence (p : Option Char) {s : List Char} (h : startsFence s = false) :
    mFenceClose p s = none := by
  simp [mFenceClose, h]

/-- Characters of a newline-free stretch of a line are copied through by
a line-anchored substitution once its first position fails. -/
theorem go_line_copy (m : Matcher) (hanchor : ∀ p s, atLineStart p = false → m p s = none) :
    ∀ (u : List Char) (p : Option Char) (v : List Char), '\n' ∉ u →
      (u ≠ [] → m p (u ++ v) = none) →
      go m 0 p (u ++ v) = u ++ go m 0 (prevAfter u p) v := by
  intro u
  induction u with
  | nil => intro p v _ _; rfl
  | cons c u' ih =>
    intro p v hnl hfirst
    have hc : c ≠ '\n' := fun he => hnl (he ▸ List.mem_cons_self c u')
    have h2 : '\n' ∉ u' := fun hm => hnl (List.mem_cons_of_mem c hm)
    have hstart : atLineStart (some c) = false := by
      simpa [atLineStart] using hc
    have hnone := hfirst (by simp)
    calc go m 0 p ((c :: u') ++ v)
        = go m 0 p (c :: (u' ++ v)) := by rw [List.cons_append]
      _ = c :: go m 0 (some c) (u' ++ v) :=
          go_zero_cons_none m p c (u' ++ v) (by exact hnone)
      _ = c :: (u' ++ go m 0 (prevAfter u' (some c)) v) := by
          rw [ih (some c) v h2 (fun _ => hanchor (some c) (u' ++ v) hstart)]
      _ = (c :: u') ++ go m 0 (prevAfter (c :: u') p) v := by
          rw [prevAfter_cons]; rfl

/-- The opening-fence pass deletes exactly the lines whose first three
characters are backticks, each together with its own line break. -/
theorem go_mFenceOpen_eq : ∀ (N : Nat) (t : List Char), t.length ≤ N →
    ∀ (p : Option Char), atLineStart p = true →
      go mFenceOpen 0 p t =
        ((lineUnits t).filter (fun u => !startsFence u)).flatten := by
  intro N
  induction N with
  | zero =>
    intro t ht p _
    have : t = [] := List.length_eq_zero.mp (Nat.le_zero.mp ht)
    subst this
    rfl
  | succ N ih =>
    intro t ht p hp
    cases t with
    | nil => rfl
    | cons c0 cs0 =>
    by_cases hf : startsFence (c0 :: cs0) = true
    · cases cs0 with
      | nil => exact absurd hf (by simp [startsFence])
      | cons c1 cs1 =>
        cases cs1 with
        | nil => exact absurd hf (by simp [startsFence])
        | cons c2 cs2 =>
          have hb : (c0 = btick ∧ c1 = btick) ∧ c2 = btick := by
            simpa [startsFence] using hf
          obtain ⟨⟨rfl, rfl⟩, rfl⟩ := hb
          cases hdw : cs2.dropWhile (· ≠ '\n') with
          | nil =>
            have hrest : cs2.takeWhile (· ≠ '\n') = cs2 := by
              have h3 := List.takeWhile_append_dropWhile (p := (· ≠ '\n')) (l := cs2)
              rw [hdw, List.append_nil] at h3
              exact h3
            have hsome : mFenceOpen p (btick :: btick :: btick :: cs2) =
                some ([], (cs2.takeWhile (· ≠ '\n')).length + 3) := by
              unfold mFenceOpen
              rw [hp, hf, if_pos rfl, if_pos rfl]
              simp only [List.drop_succ_cons, List.drop_zero]
              rw [hdw]
              rfl
            rw [go_zero_cons_some _ _ _ _ _ _ hsome, List.nil_append, go_skip]
            rw [List.drop_eq_nil_iff.mpr (by rw [hrest]; simp), go_nil]
            have hnl : '\n' ∉ (btick :: btick :: btick :: cs2) := by
              intro hm
              have hno : ∀ x ∈ cs2, x ≠ '\n' := by
                intro x hx
                have := List.dropWhile_eq_nil_iff.mp hdw x hx
                simpa using this
              rcases List.mem_cons.mp hm with h | hm
              · exact absurd h.symm (by decide)
              rcases List.mem_cons.mp hm with h | hm
              · exact absurd h.symm (by decide)
              rcases List.mem_cons.mp hm with h | hm
              · exact absurd h.symm (by decide)
              · exact hno '\n' hm rfl
            rw [lineUnits_no_nl _ (by simp) hnl, List.filter_cons,
              if_neg (by rw [hf]; simp)]
            rfl
          | cons x xs =>
            have hx : x = '\n' := by
              have h3 := List.head?_dropWhile_not (· ≠ '\n') cs2
              rw [hdw] at h3
              simpa using h3
            subst hx
            have hsplit : cs2 = cs2.takeWhile (· ≠ '\n') ++ '\n' :: xs := by
              conv_lhs => rw [← List.takeWhile_append_dropWhile (p := (· ≠ '\n')) (l := cs2)]
              rw [hdw]
            have hsome : mFenceOpen p (btick :: btick :: btick :: cs2) =
                some ([], (cs2.takeWhile (· ≠ '\n')).length + 4) := by
              unfold mFenceOpen
              rw [hp, hf, if_pos rfl, if_pos rfl]
              simp only [List.drop_succ_cons, List.drop_zero]
              rw [hdw]
              rfl
            rw [go_zero_cons_some _ _ _ _ _ _ hsome, List.nil_append, go_skip]
            have harr : (btick :: btick :: cs2) =
                (btick :: btick :: (cs2.takeWhile (· ≠ '\n') ++ ['\n'])) ++ xs := by
              conv_lhs => rw [hsplit]
              simp
            have htake : (btick :: btick :: cs2).take
                  ((cs2.takeWhile (· ≠ '\n')).length + 4 - 1) =
                btick :: btick :: (cs2.takeWhile (· ≠ '\n') ++ ['\n']) := by
              rw [harr]
              refine List.take_left' ?_
              simp only [List.length_cons, List.length_append, List.length_nil]
              omega
            have hdrop2 : (btick :: btick :: cs2).drop
                ((cs2.takeWhile (· ≠ '\n')).length + 4 - 1) = xs := by
              rw [harr]
              refine List.drop_left' ?_
              simp only [List.length_cons, List.length_append, List.length_nil]
              omega
            rw [htake, hdrop2]
            have hprev : prevAfter (btick :: btick :: (cs2.takeWhile (· ≠ '\n') ++ ['\n']))
                (some btick) = some '\n' := by
              unfold prevAfter
              rw [show (btick :: btick :: (cs2.takeWhile (· ≠ '\n') ++ ['\n'])) =
                ((btick :: btick :: cs2.takeWhile (· ≠ '\n')) ++ ['\n']) by simp,
                List.getLast?_concat]
            rw [hprev]
            have hxs : xs.length ≤ N := by
              have h4 := congrArg List.length hsplit
              simp only [List.length_cons, List.length_append] at h4 ht ⊢
              omega
            rw [ih xs hxs (some '\n') (by decide)]
            have hnl_b : '\n' ∉ (btick :: btick :: btick :: cs2.takeWhile (· ≠ '\n')) := by
              intro hm
              rcases List.mem_cons.mp hm with h | hm
              · exact absurd h.symm (by decide)
              rcases List.mem_cons.mp hm with h | hm
              · exact absurd h.symm (by decide)
              rcases List.mem_cons.mp hm with h | hm
              · exact absurd h.symm (by decide)
              · have := List.mem_takeWhile_imp hm
                simp at this
            have hlu : lineUnits (btick :: btick :: btick :: cs2) =
                ((btick :: btick :: btick :: cs2.takeWhile (· ≠ '\n')) ++ ['\n']) ::
                  lineUnits xs := by
              conv_lhs => rw [hsplit]
              have := lineUnits_append_nl
                (btick :: btick :: btick :: cs2.takeWhile (· ≠ '\n')) hnl_b xs
              simpa using this
            rw [hlu, List.filter_cons]
            have hfu : startsFence
                ((btick :: btick :: btick :: cs2.takeWhile (· ≠ '\n')) ++ ['\n']) = true := by
              simp [startsFence]
            rw [if_neg (by rw [hfu]; simp)]
    · have hffalse : startsFence (c0 :: cs0) = false := by simpa using hf
      have hfirst : mFenceOpen p (c0 :: cs0) = none := mFenceOpen_not_fence p hffalse
      have hnl_l : '\n' ∉ (c0 :: cs0).takeWhile (· ≠ '\n') := by
        intro hm
        have := List.mem_takeWhile_imp hm
        simp at this
      cases hdw : (c0 :: cs0).dropWhile (· ≠ '\n') with
      | nil =>
        have hnl_t : '\n' ∉ (c0 :: cs0) := by
          intro hm
          have := List.dropWhile_eq_nil_iff.mp hdw '\n' hm
          simp at this
        have hcopy := go_line_copy mFenceOpen mFenceOpen_anchor (c0 :: cs0) p [] hnl_t
          (fun _ => by rw [List.append_nil]; exact hfirst)
        rw [List.append_nil] at hcopy
        rw [hcopy, go_nil, lineUnits_no_nl _ (by simp) hnl_t, List.filter_cons,
          if_pos (by rw [hffalse]; rfl)]
        simp
      | cons x xs =>
        have hx : x = '\n' := by
          have h3 := List.head?_dropWhile_not (· ≠ '\n') (c0 :: cs0)
          rw [hdw] at h3
          simpa using h3
        subst hx
        have hsplit : c0 :: cs0 = (c0 :: cs0).takeWhile (· ≠ '\n') ++ '\n' :: xs := by
          conv_lhs => rw [← List.takeWhile_append_dropWhile (p := (· ≠ '\n')) (l := c0 :: cs0)]
          rw [hdw]
        have hxs : xs.length ≤ N := by
          have h4 := congrArg List.length hsplit
          simp only [List.length_cons, List.length_append] at h4 ht ⊢
          omega
        conv_lhs => rw [hsplit]
        rw [go_line_copy mFenceOpen mFenceOpen_anchor ((c0 :: cs0).takeWhile (· ≠ '\n')) p
          ('\n' :: xs) hnl_l (fun _ => by rw [← hsplit]; exact hfirst)]
        rw [go_zero_cons_none _ _ _ _
          (mFenceOpen_not_fence _ (startsFence_false_of_head (by decide) xs))]
        rw [ih xs hxs (some '\n') (by decide)]
        conv_rhs => rw [hsplit]
        rw [lineUnits_append_nl _ hnl_l xs, List.filter_cons]
        have hsf : startsFence ((c0 :: cs0).takeWhile (· ≠ '\n') ++ ['\n']) = false := by
          rw [← startsFence_line _ xs, ← hsplit]
          exact hffalse
        rw [if_pos (by rw [hsf]; rfl), List.flatten_cons, List.append_assoc]
        rfl

/-- Invariant for the closing-fence pass: no line of the text begins
with three backticks (the Bool argument tells whether the current
position is at a line start). -/
def fenceFree : Bool → List Char → Bool
  | _, [] => true
  | a, c :: cs => !(a && startsFence (c :: cs)) && fenceFree (c == '\n') cs

/-- The closing-fence pass cannot fire on a text without fence lines. -/
theorem go_mFenceClose_id : ∀ (s : List Char) (p : Option Char),
    fenceFree (atLineStart p) s = true → go mFenceClose 0 p s = s := by
  have hnone : ∀ (p : Option Char) (c : Char) (cs : List Char),
      fenceFree (atLineStart p) (c :: cs) = true → mFenceClose p (c :: cs) = none := by
    intro p c cs hi
    cases hl : atLineStart p with
    | false => exact mFenceClose_anchor p _ hl
    | true =>
      rw [hl] at hi
      have := ((Bool.and_eq_true _ _).mp hi).1
      have hsf : startsFence (c :: cs) = false := by
        simpa using this
      exact mFenceClose_not_fence p hsf
  have hstep : ∀ (p : Option Char) (c : Char) (cs : List Char),
      fenceFree (atLineStart p) (c :: cs) = true →
        fenceFree (atLineStart (some c)) cs = true := by
    intro p c cs hi
    exact ((Bool.and_eq_true _ _).mp hi).2
  intro s p h
  exact go_id_of_inv mFenceClose (fun p t => fenceFree (atLineStart p) t = true)
    hnone hstep s p h

theorem fenceFree_walk : ∀ (l : List Char), '\n' ∉ l →
    ∀ (v : List Char), fenceFree false (l ++ v) = fenceFree false v := by
  intro l
  induction l with
  | nil => intro _ v; rfl
  | cons c l' ih =>
    intro hnl v
    have hc : c ≠ '\n' := fun he => hnl (he ▸ List.mem_cons_self c l')
    have h2 : '\n' ∉ l' := fun hm => hnl (List.mem_cons_of_mem c hm)
    show (!(false && startsFence (c :: (l' ++ v))) && fenceFree (c == '\n') (l' ++ v)) =
      fenceFree false v
    rw [Bool.false_and, Bool.not_false, Bool.true_and,
      show (c == '\n') = false from by simpa using hc, ih h2 v]

/-- The kept units of the line decomposition assemble into a text with
no fence line anywhere. -/
theorem fenceFree_flatten_filter : ∀ (N : Nat) (t : List Char), t.length ≤ N →
    fenceFree true (((lineUnits t).filter (fun u => !startsFence u)).flatten) = true := by
  intro N
  induction N with
  | zero =>
    intro t ht
    have : t = [] := List.length_eq_zero.mp (Nat.le_zero.mp ht)
    subst this
    rfl
  | succ N ih =>
    intro t ht
    cases t with
    | nil => rfl
    | cons c0 cs0 =>
    have hnl_l : '\n' ∉ (c0 :: cs0).takeWhile (· ≠ '\n') := by
      intro hm
      have := List.mem_takeWhile_imp hm
      simp at this
    cases hdw : (c0 :: cs0).dropWhile (· ≠ '\n') with
    | nil =>
      have hnl_t : '\n' ∉ (c0 :: cs0) := by
        intro hm
        have := List.dropWhile_eq_nil_iff.mp hdw '\n' hm
        simp at this
      rw [lineUnits_no_nl _ (by simp) hnl_t, List.filter_cons]
      by_cases hsf : startsFence (c0 :: cs0) = true
      · rw [if_neg (by rw [hsf]; simp)]
        rfl
      · have hsf' : startsFence (c0 :: cs0) = false := by simpa using hsf
        rw [if_pos (by rw [hsf']; rfl)]
        have hc0 : c0 ≠ '\n' := fun he => hnl_t (he ▸ List.mem_cons_self c0 cs0)
        have h2 : '\n' ∉ cs0 := fun hm => hnl_t (List.mem_cons_of_mem c0 hm)
        show fenceFree true ((c0 :: cs0) ++ ([] : List (List Char)).flatten) = true
        show (!(true && startsFence ((c0 :: cs0) ++ [])) &&
          fenceFree (c0 == '\n') (cs0 ++ [])) = true
        rw [List.append_nil, List.append_nil, Bool.true_and, hsf', Bool.not_false,
          Bool.true_and, show (c0 == '\n') = false from by simpa using hc0]
        have := fenceFree_walk cs0 h2 []
        rw [List.append_nil] at this
        rw [this]
        rfl
    | cons x xs =>
      have hx : x = '\n' := by
        have h3 := List.head?_dropWhile_not (· ≠ '\n') (c0 :: cs0)
        rw [hdw] at h3
        simpa using h3
      subst hx
      have hsplit : c0 :: cs0 = (c0 :: cs0).takeWhile (· ≠ '\n') ++ '\n' :: xs := by
        conv_lhs => rw [← List.takeWhile_append_dropWhile (p := (· ≠ '\n')) (l := c0 :: cs0)]
        rw [hdw]
      have hxs : xs.length ≤ N := by
        have h4 := congrArg List.length hsplit
        simp only [List.length_cons, List.length_append] at h4 ht ⊢
        omega
      rw [show lineUnits (c0 :: cs0) =
          ((c0 :: cs0).takeWhile (· ≠ '\n') ++ ['\n']) :: lineUnits xs from by
        conv_lhs => rw [hsplit]
        exact lineUnits_append_nl _ hnl_l xs]
      rw [List.filter_cons]
      by_cases hsf : startsFence ((c0 :: cs0).takeWhile (· ≠ '\n') ++ ['\n']) = true
      · rw [if_neg (by rw [hsf]; simp)]
        exact ih xs hxs
      · have hsf' : startsFence ((c0 :: cs0).takeWhile (· ≠ '\n') ++ ['\n']) = false := by
          simpa using hsf
        rw [if_pos (by rw [hsf']; rfl), List.flatten_cons, List.append_assoc]
        have hflat : (['\n'] ++ ((lineUnits xs).filter (fun u => !startsFence u)).flatten) =
            '\n' :: ((lineUnits xs).filter (fun u => !startsFence u)).flatten := rfl
        rw [hflat]
        cases htw : (c0 :: cs0).takeWhile (· ≠ '\n') with
        | nil =>
          show (!(true && startsFence ('\n' :: _)) && fenceFree true _) = true
          rw [startsFence_false_of_head (by decide), Bool.and_false, Bool.not_false,
            Bool.true_and]
          exact ih xs hxs
        | cons d l' =>
          have hd : d ≠ '\n' := by
            have : d ∈ (c0 :: cs0).takeWhile (· ≠ '\n') := by
              rw [htw]; exact List.mem_cons_self d l'
            have := List.mem_takeWhile_imp this
            simpa using this
          have hl' : '\n' ∉ l' := by
            intro hm
            exact hnl_l (htw ▸ List.mem_cons_of_mem d hm)
          show (!(true && startsFence ((d :: l') ++ '\n' ::
              ((lineUnits xs).filter (fun u => !startsFence u)).flatten)) &&
            fenceFree (d == '\n') (l' ++ '\n' ::
              ((lineUnits xs).filter (fun u => !startsFence u)).flatten)) = true
          rw [startsFence_line, show startsFence ((d :: l') ++ ['\n']) = false from htw ▸ hsf',
            Bool.and_false, Bool.not_false, Bool.true_and,
            show (d == '\n') = false from by simpa using hd, fenceFree_walk l' hl']
          show (!(false && _) && fenceFree true _) = true
          rw [Bool.false_and, Bool.not_false, Bool.true_and]
          exact ih xs hxs

/-! ### Claim theorems -/

/-- C10: under the preserve-content policy, `clean_code_block_markers`
performs no fence pairing at all: every line beginning with three
backticks is deleted together with its own line break — including an
opening fence with no matching close — and every other line is kept
unchanged; the function is total, so no input raises an error. -/
theorem c10_fence_lines_removed (t : List Char) :
    clean_code_block_markers t =
      ((lineUnits t).filter (fun u => !startsFence u)).flatten := by
  show subst mFenceClose (subst mFenceOpen t) = _
  have h1 : subst mFenceOpen t = ((lineUnits t).filter (fun u => !startsFence u)).flatten :=
    go_mFenceOpen_eq t.length t (Nat.le_refl _) none rfl
  rw [h1]
  exact go_mFenceClose_id _ none (fenceFree_flatten_filter t.length t (Nat.le_refl _))

/-- C1: `process_text` applies exactly the enabled stages in the fixed
order CodeFenceHandler (if `strip_code_blocks`), TagStripper (if
`strip_xml`), MarkdownFormatStripper (if `strip_markdown`), and finally
WhitespaceNormalizer unconditionally; it equals the sequential
composition of those stage functions in that order. -/
theorem c1_pipeline_fixed_order (text : List Char) (settings : Settings) :
    process_text text settings = pipelineSpec settings text := rfl

/-- C9: `pct_savings` computes the percentage saved as
`delta / original * 100`, and when the original token count is zero the
percentage is defined to be `0`; being a total function into the
rationals, the computation never fails with a division-by-zero error. -/
theorem c9_pct_savings_spec (orig_tokens new_tokens : Nat) :
    (orig_tokens = 0 → pct_savings orig_tokens new_tokens = 0) ∧
    (orig_tokens ≠ 0 → pct_savings orig_tokens new_tokens =
      ((orig_tokens : Rat) - (new_tokens : Rat)) / (orig_tokens : Rat) * 100) := by
  constructor
  · intro h
    subst h
    rfl
  · intro h
    have hpos : 0 < orig_tokens := Nat.pos_of_ne_zero h
    unfold pct_savings
    rw [if_pos hpos]
    unfold tokens_saved
    push_cast
    ring

theorem c9_pct_savings_spec_witness :
    pct_savings 0 7 = 0 ∧
    pct_savings 4 3 = ((4 : Rat) - (3 : Rat)) / (4 : Rat) * 100 :=
  ⟨(c9_pct_savings_spec 0 7).1 rfl, (c9_pct_savings_spec 4 3).2 (by decide)⟩

/-- C2: contrary to the claim that `![alt](url)` is rewritten to `alt`
with the leading `!` removed, the code rewrites it to `!alt`: the
inline-link substitution of src/app.py line 50 consumes `[alt](url)`
before the image substitution of line 59 can see the full pattern, so
the leading `!` survives.  This contradicts the code's own comment on
lines 58-59. -/
theorem c2_image_bang_survives :
    clean_markdown_formatting ("![alt](url)".toList) = "!alt".toList := by decide

/-- C3: contrary to the claim that `- [ ] item` becomes `item`, the code
produces `[ ] item`: the unordered-list substitution of src/app.py line
68 consumes the bullet `- ` first, and the task-list substitution of
line 74 then no longer finds a bullet before the checkbox, so the
checkbox survives.  This contradicts the code's own comment on lines
73-74. -/
theorem c3_tasklist_checkbox_survives :
    clean_markdown_formatting ("- [ ] item".toList) = "[ ] item".toList := by decide

/-- C5 (counterexample): `clean_markdown_formatting` is not idempotent.
On `[a[^b]](c)` one application removes only the footnote `[^b]`,
producing the fresh inline link `[a](c)`, which a second application
rewrites to `a`. -/
theorem c5_markdown_not_idempotent :
    clean_markdown_formatting (clean_markdown_formatting ("[a[^b]](c)".toList)) ≠
      clean_markdown_formatting ("[a[^b]](c)".toList) := by decide

/-- C5 (amended): TagStripper and WhitespaceNormalizer are idempotent
(`f (f t) = f t` for every text); MarkdownFormatStripper is not, as the
counterexample shows. -/
theorem c5_tag_whitespace_idempotent (t : List Char) :
    clean_xml_tags (clean_xml_tags t) = clean_xml_tags t ∧
    normalize_whitespace (normalize_whitespace t) = normalize_whitespace t :=
  ⟨clean_xml_tags_idem t, normalize_whitespace_idem t⟩

/-! ### TagStripper on paired tags -/

theorem getLastD_mem_of_ne_nil {l : List Char} (h : l ≠ []) (d : Char) : l.getLastD d ∈ l := by
  cases l with
  | nil => exact absurd rfl h
  | cons a l' =>
    have h2 : (a :: l').getLast? = some ((a :: l').getLast (by simp)) :=
      Option.mem_def.mp (List.getLast_mem_getLast? (by simp))
    rw [List.getLastD_eq_getLast?, h2, Option.getD_some]
    exact List.getLast_mem _

theorem ne_of_forall_mem {l : List Char} {x : Char} (hx : x ∉ l) :
    ∀ a ∈ l, (a ≠ x) = True := by
  intro a ha
  simp only [ne_eq, eq_iff_iff, iff_true]
  exact fun he => hx (he ▸ ha)

theorem mSelfClose_open_none (p : Option Char) (nm : List Char) (tail : List Char)
    (hnm : nm ≠ []) (hgt : '>' ∉ nm) (hsl : '/' ∉ nm) :
    mSelfClose p ('<' :: (nm ++ '>' :: tail)) = none := by
  have hall : ∀ a ∈ nm, ((· ≠ '>') : Char → Bool) a = true := by
    intro a ha
    have : a ≠ '>' := fun he => hgt (he ▸ ha)
    simpa using this
  rw [mSelfClose_cons_lt]
  rw [List.dropWhile_append_of_pos hall, List.dropWhile_cons_of_neg (by simp)]
  rw [List.takeWhile_append_of_pos hall, List.takeWhile_cons_of_neg (by simp),
    List.append_nil]
  refine if_neg ?_
  rintro ⟨-, hlast⟩
  exact hsl (hlast ▸ getLastD_mem_of_ne_nil hnm ' ')

theorem mSelfClose_close_none (p : Option Char) (nm : List Char) (tail : List Char)
    (hnm : nm ≠ []) (hgt : '>' ∉ nm) (hsl : '/' ∉ nm) :
    mSelfClose p ('<' :: ('/' :: nm ++ '>' :: tail)) = none := by
  have hall : ∀ a ∈ '/' :: nm, ((· ≠ '>') : Char → Bool) a = true := by
    intro a ha
    rcases List.mem_cons.mp ha with h | h
    · simp [h]
    · have : a ≠ '>' := fun he => hgt (he ▸ h)
      simpa using this
  rw [mSelfClose_cons_lt]
  rw [show ('/' :: nm ++ '>' :: tail) = ('/' :: nm) ++ '>' :: tail from rfl]
  rw [List.dropWhile_append_of_pos hall, List.dropWhile_cons_of_neg (by simp)]
  rw [List.takeWhile_append_of_pos hall, List.takeWhile_cons_of_neg (by simp),
    List.append_nil]
  refine if_neg ?_
  rintro ⟨-, hlast⟩
  cases nm with
  | nil => exact hnm rfl
  | cons a nm' =>
    rw [show ('/' :: a :: nm').getLastD ' ' = (a :: nm').getLastD ' ' from by
      rw [List.getLastD_eq_getLast?, List.getLastD_eq_getLast?,
        List.getLast?_cons_cons]] at hlast
    exact hsl (hlast ▸ getLastD_mem_of_ne_nil (by simp) ' ')

theorem mTag_open_some (p : Option Char) (nm : List Char) (tail : List Char)
    (hnm : nm ≠ []) (hgt : '>' ∉ nm) :
    mTag p ('<' :: (nm ++ '>' :: tail)) = some ([], nm.length + 2) := by
  have hall : ∀ a ∈ nm, ((· ≠ '>') : Char → Bool) a = true := by
    intro a ha
    have : a ≠ '>' := fun he => hgt (he ▸ ha)
    simpa using this
  rw [mTag_cons_lt]
  rw [List.dropWhile_append_of_pos hall, List.dropWhile_cons_of_neg (by simp)]
  rw [List.takeWhile_append_of_pos hall, List.takeWhile_cons_of_neg (by simp),
    List.append_nil]
  rw [if_pos (by cases nm with | nil => exact absurd rfl hnm | cons a nm' => simp)]

/-- TagStripper removes the opening and the closing tag independently —
their names need not match — and keeps the enclosed text intact. -/
theorem clean_xml_tags_pair (nm1 nm2 m : List Char)
    (h1 : nm1 ≠ []) (h1gt : '>' ∉ nm1) (h1lt : '<' ∉ nm1) (h1sl : '/' ∉ nm1)
    (h2 : nm2 ≠ []) (h2gt : '>' ∉ nm2) (h2lt : '<' ∉ nm2) (h2sl : '/' ∉ nm2)
    (hmgt : '>' ∉ m) (hmlt : '<' ∉ m) :
    clean_xml_tags ('<' :: (nm1 ++ '>' :: (m ++ '<' :: ('/' :: nm2 ++ ['>'])))) = m := by
  have hw1 : ∀ c ∈ nm1 ++ '>' :: m, c ≠ '<' := by
    intro c hc
    rcases List.mem_append.mp hc with h | h
    · exact fun he => h1lt (he ▸ h)
    · rcases List.mem_cons.mp h with h | h
      · simp [h]
      · exact fun he => hmlt (he ▸ h)
  have hw2 : ∀ c ∈ '/' :: nm2 ++ ['>'], c ≠ '<' := by
    intro c hc
    rcases List.mem_cons.mp hc with h | h
    · simp [h]
    rcases List.mem_append.mp h with h | h
    · exact fun he => h2lt (he ▸ h)
    · rcases List.mem_cons.mp h with h | h
      · simp [h]
      · exact absurd h (List.not_mem_nil c)
  have hgt2 : '>' ∉ '/' :: nm2 := by
    intro hm
    rcases List.mem_cons.mp hm with h | h
    · exact absurd h (by decide)
    · exact h2gt h
  have hpass1 : subst mSelfClose
      ('<' :: (nm1 ++ '>' :: (m ++ '<' :: ('/' :: nm2 ++ ['>'])))) =
      '<' :: (nm1 ++ '>' :: (m ++ '<' :: ('/' :: nm2 ++ ['>']))) := by
    show go mSelfClose 0 none _ = _
    rw [go_zero_cons_none _ _ _ _ (mSelfClose_open_none none nm1 _ h1 h1gt h1sl)]
    congr 1
    rw [show (nm1 ++ '>' :: (m ++ '<' :: ('/' :: nm2 ++ ['>'])))
        = (nm1 ++ '>' :: m) ++ ('<' :: ('/' :: nm2 ++ ['>'])) from by simp]
    rw [go_copy mSelfClose (fun c => c ≠ '<')
      (fun p c cs hc => mSelfClose_cons_ne p cs hc)
      (nm1 ++ '>' :: m) (some '<') ('<' :: ('/' :: nm2 ++ ['>'])) hw1]
    congr 1
    rw [go_zero_cons_none _ _ _ _ (mSelfClose_close_none _ nm2 [] h2 h2gt h2sl)]
    congr 1
    conv_lhs => rw [show ('/' :: nm2 ++ ['>']) = ('/' :: nm2 ++ ['>']) ++ [] from by simp]
    rw [go_copy mSelfClose (fun c => c ≠ '<')
      (fun p c cs hc => mSelfClose_cons_ne p cs hc)
      ('/' :: nm2 ++ ['>']) (some '<') [] hw2]
    rw [go_nil, List.append_nil]
  have hpass2 : subst mTag
      ('<' :: (nm1 ++ '>' :: (m ++ '<' :: ('/' :: nm2 ++ ['>'])))) = m := by
    show go mTag 0 none _ = m
    rw [go_zero_cons_some _ _ _ _ _ _ (mTag_open_some none nm1 _ h1 h1gt),
      List.nil_append, go_skip]
    rw [show (nm1 ++ '>' :: (m ++ '<' :: ('/' :: nm2 ++ ['>'])))
        = (nm1 ++ ['>']) ++ (m ++ '<' :: ('/' :: nm2 ++ ['>'])) from by simp]
    rw [List.take_left' (by
        simp only [List.length_append, List.length_cons, List.length_nil]
        omega),
      List.drop_left' (by
        simp only [List.length_append, List.length_cons, List.length_nil]
        omega)]
    rw [go_copy mTag (fun c => c ≠ '<') (fun p c cs hc => mTag_cons_ne p cs hc)
      m _ ('<' :: ('/' :: nm2 ++ ['>'])) (fun c hc he => hmlt (he ▸ hc))]
    have hX : ∀ (q : Option Char), go mTag 0 q ('<' :: ('/' :: nm2 ++ ['>'])) = [] := by
      intro q
      rw [go_zero_cons_some _ _ _ _ _ _ (mTag_open_some q ('/' :: nm2) [] (by simp) hgt2),
        List.nil_append, go_skip]
      rw [List.drop_eq_nil_iff.mpr (by
        simp only [List.length_append, List.length_cons, List.length_nil]
        omega), go_nil]
    rw [hX, List.append_nil]
  show subst mTag (subst mSelfClose _) = m
  rw [hpass1]
  exact hpass2

/-! ### The newline-collapsing pass on an explicit run -/

theorem mCollapse_fire (p : Option Char) (w : List Char) :
    mCollapse p ('\n' :: '\n' :: '\n' :: w) =
      some (['\n', '\n'], (('\n' :: '\n' :: '\n' :: w).takeWhile (· = '\n')).length) := by
  simp [mCollapse]

theorem mCollapse_none_short1 (p : Option Char) (c : Char) : mCollapse p [c] = none := rfl

theorem mCollapse_none_short2 (p : Option Char) (c d : Char) : mCollapse p [c, d] = none := rfl

theorem mCollapse_none_of_not_all {p : Option Char} {c d e : Char} {cs : List Char}
    (h : ¬(c = '\n' ∧ d = '\n' ∧ e = '\n')) : mCollapse p (c :: d :: e :: cs) = none :=
  if_neg h

theorem go_mCollapse_prev (s : List Char) (k : Nat) (p q : Option Char) :
    go mCollapse k p s = go mCollapse k q s :=
  go_prev_irrel mCollapse (fun _ _ _ => rfl) s k p q

theorem takeWhile_nl_replicate (n : Nat) (b : List Char) (hb : b.head? ≠ some '\n') :
    (List.replicate n '\n' ++ b).takeWhile (· = '\n') = List.replicate n '\n' := by
  have htb : b.takeWhile (· = '\n') = [] := by
    cases b with
    | nil => rfl
    | cons c b' =>
      have hc : c ≠ '\n' := by
        intro he
        exact hb (by simp [he])
      exact List.takeWhile_cons_of_neg (by simpa using hc)
  rw [List.takeWhile_append]
  rw [if_pos (by
    rw [List.takeWhile_eq_self_iff.mpr (by
      intro x hx
      simpa using List.eq_of_mem_replicate hx)])]
  rw [htb, List.append_nil]

theorem dropWhile_nl_replicate (n : Nat) (b : List Char) (hb : b.head? ≠ some '\n') :
    (List.replicate n '\n' ++ b).dropWhile (· = '\n') = b := by
  rw [List.dropWhile_append_of_pos (by
    intro x hx
    simpa using List.eq_of_mem_replicate hx)]
  cases b with
  | nil => rfl
  | cons c b' =>
    have hc : c ≠ '\n' := by
      intro he
      exact hb (by simp [he])
    exact List.dropWhile_cons_of_neg (by simpa using hc)

/-- The collapsing pass on a text with an explicit newline run of length
at least three between two pieces that do not touch the run: the run
becomes exactly two newlines and the pieces are collapsed on their
own. -/
theorem go_mCollapse_run : ∀ (N : Nat) (a : List Char), a.length ≤ N →
    ∀ (b : List Char) (n : Nat) (p : Option Char), 3 ≤ n →
      a.getLast? ≠ some '\n' → b.head? ≠ some '\n' →
      go mCollapse 0 p (a ++ (List.replicate n '\n' ++ b)) =
        go mCollapse 0 p a ++ '\n' :: '\n' :: go mCollapse 0 none b := by
  intro N
  induction N with
  | zero =>
    intro a ha b n p hn hal hbh
    have ha0 : a = [] := List.length_eq_zero.mp (Nat.le_zero.mp ha)
    subst ha0
    obtain ⟨k, rfl⟩ := Nat.exists_eq_add_of_le hn
    rw [List.nil_append, go_nil, List.nil_append]
    rw [show List.replicate (3 + k) '\n' = '\n' :: '\n' :: '\n' :: List.replicate k '\n' from by
      rw [List.replicate_add]
      rfl]
    rw [show ('\n' :: '\n' :: '\n' :: List.replicate k '\n') ++ b =
      '\n' :: '\n' :: '\n' :: (List.replicate k '\n' ++ b) from rfl]
    rw [go_zero_cons_some _ _ _ _ _ _ (mCollapse_fire p (List.replicate k '\n' ++ b)), go_skip]
    have hrun : ('\n' :: '\n' :: '\n' :: (List.replicate k '\n' ++ b)).takeWhile (· = '\n')
        = List.replicate (3 + k) '\n' := by
      rw [show '\n' :: '\n' :: '\n' :: (List.replicate k '\n' ++ b) =
        List.replicate (3 + k) '\n' ++ b from by rw [List.replicate_add]; rfl]
      exact takeWhile_nl_replicate (3 + k) b hbh
    rw [hrun]
    have hdrop : ('\n' :: '\n' :: (List.replicate k '\n' ++ b)).drop
        ((List.replicate (3 + k) '\n').length - 1) = b := by
      have h1 : ('\n' :: '\n' :: '\n' :: (List.replicate k '\n' ++ b)).drop
          (List.replicate (3 + k) '\n').length = b := by
        rw [show '\n' :: '\n' :: '\n' :: (List.replicate k '\n' ++ b) =
          List.replicate (3 + k) '\n' ++ b from by rw [List.replicate_add]; rfl]
        exact List.drop_left _ _
      have h2 : (List.replicate (3 + k) '\n').length =
          ((List.replicate (3 + k) '\n').length - 1) + 1 := by
        simp only [List.length_replicate]
        omega
      rw [h2, List.drop_succ_cons] at h1
      exact h1
    rw [hdrop]
    rw [go_mCollapse_prev b 0 _ none]
    rfl
  | succ N ih =>
    intro a ha b n p hn hal hbh
    cases a with
    | nil => exact ih [] (by simp) b n p hn hal hbh
    | cons c a' =>
      cases a' with
      | nil =>
        have hc : c ≠ '\n' := by
          intro he
          exact hal (by simp [he])
        have hnone : mCollapse p ([c] ++ (List.replicate n '\n' ++ b)) = none := by
          obtain ⟨k, rfl⟩ := Nat.exists_eq_add_of_le hn
          rw [show [c] ++ (List.replicate (3 + k) '\n' ++ b) =
            c :: '\n' :: '\n' :: ('\n' :: List.replicate k '\n' ++ b) from by
              rw [List.replicate_add]; rfl]
          exact mCollapse_none_of_not_all (fun h => hc h.1)
        rw [show ([c] ++ (List.replicate n '\n' ++ b)) =
          c :: (List.replicate n '\n' ++ b) from rfl] at hnone ⊢
        rw [go_zero_cons_none _ _ _ _ hnone]
        have hbase := ih [] (by simp) b n (some c) hn (by simp) hbh
        rw [List.nil_append, go_nil, List.nil_append] at hbase
        rw [hbase]
        rfl
      | cons d a'' =>
        by_cases hfire : c = '\n' ∧ d = '\n' ∧ a''.head? = some '\n'
        · -- the composite fires; the run lies inside `a`
          obtain ⟨rfl, rfl, hh⟩ := hfire
          obtain ⟨a3, rfl⟩ : ∃ a3, a'' = '\n' :: a3 := by
            cases a'' with
            | nil => simp at hh
            | cons x xs =>
              simp only [List.head?_cons, Option.some.injEq] at hh
              exact ⟨xs, by rw [hh]⟩
          have hane : ('\n' :: '\n' :: '\n' :: a3 : List Char) ≠ [] := by simp
          have hDne : ('\n' :: '\n' :: '\n' :: a3).dropWhile (· = '\n') ≠ [] := by
            intro hD
            have hall := List.dropWhile_eq_nil_iff.mp hD
            have hsome : ('\n' :: '\n' :: '\n' :: a3).getLast? =
                some (('\n' :: '\n' :: '\n' :: a3).getLast hane) :=
              Option.mem_def.mp (List.getLast_mem_getLast? hane)
            have heq : ('\n' :: '\n' :: '\n' :: a3).getLast hane = '\n' := by
              simpa using hall _ (List.getLast_mem hane)
            exact hal (by rw [hsome, heq])
          have hTD := List.takeWhile_append_dropWhile (p := (· = '\n'))
            (l := '\n' :: '\n' :: '\n' :: a3)
          have hTlen : (('\n' :: '\n' :: '\n' :: a3).takeWhile (· = '\n')).length ≠
              ('\n' :: '\n' :: '\n' :: a3).length := by
            intro hlen
            have h5 : (('\n' :: '\n' :: '\n' :: a3).dropWhile (· = '\n')).length = 0 := by
              have h6 := congrArg List.length hTD
              rw [List.length_append] at h6
              omega
            exact hDne (List.length_eq_zero.mp h5)
          have hTW : (('\n' :: '\n' :: '\n' :: a3) ++ (List.replicate n '\n' ++ b)).takeWhile
              (· = '\n') = ('\n' :: '\n' :: '\n' :: a3).takeWhile (· = '\n') := by
            rw [List.takeWhile_append, if_neg hTlen]
          rw [show ('\n' :: '\n' :: '\n' :: a3) ++ (List.replicate n '\n' ++ b) =
            '\n' :: '\n' :: '\n' :: (a3 ++ (List.replicate n '\n' ++ b)) from by simp]
          rw [go_zero_cons_some _ _ _ _ _ _
            (mCollapse_fire p (a3 ++ (List.replicate n '\n' ++ b)))]
          rw [go_skip mCollapse
            ((('\n' :: '\n' :: '\n' :: (a3 ++ (List.replicate n '\n' ++ b))).takeWhile
              (· = '\n')).length - 1)]
          rw [go_zero_cons_some _ _ _ _ _ _ (mCollapse_fire p a3)]
          rw [go_skip mCollapse
            ((('\n' :: '\n' :: '\n' :: a3).takeWhile (· = '\n')).length - 1)]
          have hTW2 : ('\n' :: '\n' :: '\n' :: (a3 ++ (List.replicate n '\n' ++ b))).takeWhile
              (· = '\n') = ('\n' :: '\n' :: '\n' :: a3).takeWhile (· = '\n') := by
            rw [show '\n' :: '\n' :: '\n' :: (a3 ++ (List.replicate n '\n' ++ b)) =
              ('\n' :: '\n' :: '\n' :: a3) ++ (List.replicate n '\n' ++ b) from by simp, hTW]
          rw [hTW2]
          set T := ('\n' :: '\n' :: '\n' :: a3).takeWhile (· = '\n') with hT
          set D := ('\n' :: '\n' :: '\n' :: a3).dropWhile (· = '\n') with hD
          have hsplitT : ('\n' :: '\n' :: '\n' :: a3) = T ++ D := hTD.symm
          have hdrop1 : ('\n' :: '\n' :: (a3 ++ (List.replicate n '\n' ++ b))).drop
              (T.length - 1) = D ++ (List.replicate n '\n' ++ b) := by
            have h1 : ('\n' :: '\n' :: '\n' :: (a3 ++ (List.replicate n '\n' ++ b))).drop
                T.length = D ++ (List.replicate n '\n' ++ b) := by
              rw [show '\n' :: '\n' :: '\n' :: (a3 ++ (List.replicate n '\n' ++ b)) =
                (T ++ D) ++ (List.replicate n '\n' ++ b) from by rw [← hsplitT]; simp]
              rw [List.append_assoc]
              exact List.drop_left' rfl
            have h2 : T.length = (T.length - 1) + 1 := by
              rw [hT, List.takeWhile_cons_of_pos (by simp)]
              simp
            rw [h2, List.drop_succ_cons] at h1
            exact h1
          have hdrop2 : ('\n' :: '\n' :: a3).drop (T.length - 1) = D := by
            have h1 : ('\n' :: '\n' :: '\n' :: a3).drop T.length = D := by
              rw [hsplitT]
              exact List.drop_left' rfl
            have h2 : T.length = (T.length - 1) + 1 := by
              rw [hT, List.takeWhile_cons_of_pos (by simp)]
              simp
            rw [h2, List.drop_succ_cons] at h1
            exact h1
          rw [hdrop1, hdrop2]
          have hDlen : D.length ≤ N := by
            have h7 : D.length ≤ ('\n' :: '\n' :: a3).length := by
              rw [hD, List.dropWhile_cons_of_pos (by simp)]
              exact (List.dropWhile_sublist (· = '\n')).length_le
            simp only [List.length_cons] at ha h7
            omega
          have hDlast : D.getLast? ≠ some '\n' := by
            intro hDl
            refine hal ?_
            rw [hsplitT, List.getLast?_append_of_ne_nil T hDne]
            exact hDl
          rw [ih D hDlen b n _ hn hDlast hbh]
          rw [go_mCollapse_prev D 0
            (prevAfter (('\n' :: '\n' :: (a3 ++ (List.replicate n '\n' ++ b))).take
              (T.length - 1)) (some '\n'))
            (prevAfter (('\n' :: '\n' :: a3).take (T.length - 1)) (some '\n'))]
          simp
        · -- no fire on either side
          have hnone1 : mCollapse p ((c :: d :: a'') ++ (List.replicate n '\n' ++ b)) =
              none := by
            cases ha3 : a'' with
            | nil =>
              have hd : d ≠ '\n' := by
                intro he
                refine hal ?_
                rw [ha3, he]
                rfl
              obtain ⟨k, rfl⟩ := Nat.exists_eq_add_of_le hn
              rw [show ([c, d] ++ (List.replicate (3 + k) '\n' ++ b)) =
                c :: d :: '\n' :: (('\n' :: '\n' :: List.replicate k '\n') ++ b) from by
                  rw [List.replicate_add]; rfl]
              exact mCollapse_none_of_not_all (fun h => hd h.2.1)
            | cons e a3 =>
              rw [show ((c :: d :: e :: a3) ++ (List.replicate n '\n' ++ b)) =
                c :: d :: e :: (a3 ++ (List.replicate n '\n' ++ b)) from by simp]
              refine mCollapse_none_of_not_all (fun h => hfire ⟨h.1, h.2.1, ?_⟩)
              rw [ha3, h.2.2]
              rfl
          have hnone2 : mCollapse p (c :: d :: a'') = none := by
            cases ha3 : a'' with
            | nil => exact mCollapse_none_short2 p c d
            | cons e a3 =>
              refine mCollapse_none_of_not_all (fun h => hfire ⟨h.1, h.2.1, ?_⟩)
              rw [ha3, h.2.2]
              rfl
          rw [show ((c :: d :: a'') ++ (List.replicate n '\n' ++ b)) =
            c :: ((d :: a'') ++ (List.replicate n '\n' ++ b)) from by simp] at hnone1 ⊢
          rw [go_zero_cons_none _ _ _ _ hnone1]
          rw [go_zero_cons_none _ _ _ _ hnone2]
          have hlast' : (d :: a'').getLast? ≠ some '\n' := by
            intro hh
            refine hal ?_
            rw [show ((c :: d :: a'') : List Char) = [c] ++ (d :: a'') from rfl,
              List.getLast?_append_of_ne_nil [c] (by simp)]
            exact hh
          rw [ih (d :: a'') (by
            simp only [List.length_cons] at ha ⊢
            omega) b n (some c) hn hlast' hbh]
          rfl

/-! ### Bold before italic -/

theorem mPair2_cons_ne (d : Char) (p : Option Char) {c : Char} (cs : List Char) (hc : c ≠ d) :
    mPair2 d p (c :: cs) = none := by
  cases cs with
  | nil => rfl
  | cons e cs' => exact if_neg (fun h => hc h.1)

theorem mItalic_cons_ne (d : Char) (p : Option Char) {c : Char} (cs : List Char) (hc : c ≠ d) :
    mItalic d p (c :: cs) = none :=
  if_neg (fun h => hc h.1)

theorem subst_mItalic_id {d : Char} {s : List Char} (h : d ∉ s) : subst (mItalic d) s = s :=
  go_id_of_inv (mItalic d) (fun _ t => d ∉ t)
    (fun p c cs hi => mItalic_cons_ne d p cs (fun he => hi (he ▸ List.mem_cons_self c cs)))
    (fun _ c cs hi hm => hi (List.mem_cons_of_mem c hm)) s none h

theorem mPair2_fire (d : Char) (p : Option Char) (w v : List Char)
    (hw : w ≠ []) (hwd : d ∉ w) :
    mPair2 d p (d :: d :: (w ++ d :: d :: v)) = some (w, w.length + 4) := by
  have hall : ∀ a ∈ w, ((· ≠ d) : Char → Bool) a = true := by
    intro a ha
    have : a ≠ d := fun he => hwd (he ▸ ha)
    simpa using this
  show (if d = d ∧ d = d then
      let body := (w ++ d :: d :: v).takeWhile (· ≠ d)
      if body ≠ [] then
        match (w ++ d :: d :: v).dropWhile (· ≠ d) with
        | x :: y :: _ => if x = d ∧ y = d then some (body, body.length + 4) else none
        | _ => none
      else none
    else none) = some (w, w.length + 4)
  rw [if_pos ⟨rfl, rfl⟩]
  rw [show (w ++ d :: d :: v).takeWhile (· ≠ d) = w from by
    rw [List.takeWhile_append_of_pos hall, List.takeWhile_cons_of_neg (by simp),
      List.append_nil]]
  rw [if_pos hw]
  rw [show (w ++ d :: d :: v).dropWhile (· ≠ d) = d :: d :: v from by
    rw [List.dropWhile_append_of_pos hall, List.dropWhile_cons_of_neg (by simp)]]
  exact if_pos ⟨rfl, rfl⟩

/-- The bold rule followed by the italic rule turns `**w**` into `w`
with no stray asterisk, in any asterisk-free context. -/
theorem bold_then_italic (a w b : List Char)
    (ha : '*' ∉ a) (hw : '*' ∉ w) (hb : '*' ∉ b) (hne : w ≠ []) :
    subst (mItalic '*') (subst (mPair2 '*')
      (a ++ '*' :: '*' :: (w ++ '*' :: '*' :: b))) = a ++ (w ++ b) := by
  have hbold : subst (mPair2 '*') (a ++ '*' :: '*' :: (w ++ '*' :: '*' :: b)) =
      a ++ (w ++ b) := by
    show go (mPair2 '*') 0 none _ = _
    rw [go_copy (mPair2 '*') (fun c => c ≠ '*')
      (fun p c cs hc => mPair2_cons_ne '*' p cs hc) a none
      ('*' :: '*' :: (w ++ '*' :: '*' :: b)) (fun c hc he => ha (he ▸ hc))]
    congr 1
    rw [go_zero_cons_some _ _ _ _ _ _ (mPair2_fire '*' _ w b hne hw), go_skip]
    rw [show ('*' :: (w ++ '*' :: '*' :: b)) = ('*' :: (w ++ ['*', '*'])) ++ b from by simp]
    rw [List.take_left' (by
        simp only [List.length_cons, List.length_append, List.length_nil]
        omega),
      List.drop_left' (by
        simp only [List.length_cons, List.length_append, List.length_nil]
        omega)]
    congr 1
    conv_lhs => rw [show b = b ++ [] from by simp]
    rw [go_copy (mPair2 '*') (fun c => c ≠ '*')
      (fun p c cs hc => mPair2_cons_ne '*' p cs hc) b _ [] (fun c hc he => hb (he ▸ hc))]
    rw [go_nil, List.append_nil]
  rw [hbold]
  refine subst_mItalic_id ?_
  intro hm
  rcases List.mem_append.mp hm with h | h
  · exact ha h
  rcases List.mem_append.mp h with h | h
  · exact hw h
  · exact hb h

/-! ### The spec-modelled remove-entirely policy on an explicit block -/

theorem startsFence_concat_nl (l : List Char) :
    startsFence (l ++ ['\n']) = startsFence l := by
  match l with
  | [] => rfl
  | [a] => rfl
  | [a, b] =>
    have h : (('\n' : Char) == btick) = false := by decide
    simp [startsFence, h]
  | a :: b :: c :: l' => rfl

theorem lineUnits_mkDoc : ∀ (ls : List (List Char)), (∀ l ∈ ls, '\n' ∉ l) →
    lineUnits (mkDoc ls) = ls.map (· ++ ['\n']) := by
  intro ls
  induction ls with
  | nil => intro _; rfl
  | cons l ls' ih =>
    intro h
    show lineUnits ((l ++ ['\n']) ++ (ls'.map (· ++ ['\n'])).flatten) = _
    rw [show (l ++ ['\n']) ++ (ls'.map (· ++ ['\n'])).flatten =
      l ++ '\n' :: (ls'.map (· ++ ['\n'])).flatten from by simp]
    rw [lineUnits_append_nl l (h l (List.mem_cons_self l ls')) _]
    rw [show (ls'.map (· ++ ['\n'])).flatten = mkDoc ls' from rfl,
      ih (fun x hx => h x (List.mem_cons_of_mem l hx))]
    rfl

theorem dropFencedUnits_cons (b : Bool) (u : List Char) (us : List (List Char)) :
    dropFencedUnits b (u :: us) =
      if startsFence u then dropFencedUnits (!b) us
      else if b then dropFencedUnits b us else u :: dropFencedUnits b us := rfl

theorem dropFencedUnits_id : ∀ (us : List (List Char)),
    (∀ u ∈ us, startsFence u = false) → dropFencedUnits false us = us := by
  intro us
  induction us with
  | nil => intro _; rfl
  | cons u us' ih =>
    intro h
    rw [dropFencedUnits_cons]
    rw [if_neg (by rw [h u (List.mem_cons_self u us')]; simp)]
    rw [if_neg (by simp)]
    rw [ih (fun x hx => h x (List.mem_cons_of_mem u hx))]

theorem dropFencedUnits_inFence : ∀ (us : List (List Char)),
    (∀ u ∈ us, startsFence u = false) → ∀ (v : List (List Char)),
      dropFencedUnits true (us ++ v) = dropFencedUnits true v := by
  intro us
  induction us with
  | nil => intro _ v; rfl
  | cons u us' ih =>
    intro h v
    rw [List.cons_append, dropFencedUnits_cons]
    rw [if_neg (by rw [h u (List.mem_cons_self u us')]; simp)]
    rw [if_pos rfl]
    exact ih (fun x hx => h x (List.mem_cons_of_mem u hx)) v

theorem dropFencedUnits_block (preU bodyU postU : List (List Char)) (foU fcU : List Char)
    (hpre : ∀ u ∈ preU, startsFence u = false) (hfo : startsFence foU = true)
    (hbody : ∀ u ∈ bodyU, startsFence u = false) (hfc : startsFence fcU = true)
    (hpost : ∀ u ∈ postU, startsFence u = false) :
    dropFencedUnits false (preU ++ foU :: (bodyU ++ fcU :: postU)) = preU ++ postU := by
  induction preU with
  | nil =>
    rw [List.nil_append, List.nil_append, dropFencedUnits_cons, if_pos hfo, Bool.not_false]
    rw [dropFencedUnits_inFence bodyU hbody (fcU :: postU)]
    rw [dropFencedUnits_cons, if_pos hfc, Bool.not_true]
    exact dropFencedUnits_id postU hpost
  | cons u preU' ih =>
    rw [List.cons_append, dropFencedUnits_cons]
    rw [if_neg (by rw [hpre u (List.mem_cons_self u preU')]; simp)]
    rw [if_neg (by simp)]
    rw [ih (fun x hx => hpre x (List.mem_cons_of_mem u hx))]
    rfl

/-- C4: the CodeFenceHandler exposes a remove-entirely policy selected
by the configuration value `CodeFencePolicy.remove`: under it, every
fenced code block — the opening fence line, the code body, and the
closing fence line — is removed from the output entirely.  The policy is
modelled from the spec, since src/app.py only contains the
preserve-content behaviour. -/
theorem c4_remove_entirely_policy (pre body post : List (List Char)) (fo fc : List Char)
    (hpre : ∀ l ∈ pre, '\n' ∉ l ∧ startsFence l = false)
    (hbody : ∀ l ∈ body, '\n' ∉ l ∧ startsFence l = false)
    (hpost : ∀ l ∈ post, '\n' ∉ l ∧ startsFence l = false)
    (hfo : '\n' ∉ fo ∧ startsFence fo = true)
    (hfc : '\n' ∉ fc ∧ startsFence fc = true) :
    codeFenceStage CodeFencePolicy.remove (mkDoc (pre ++ fo :: (body ++ fc :: post))) =
      mkDoc (pre ++ post) := by
  show remove_code_blocks_entirely _ = _
  unfold remove_code_blocks_entirely
  rw [lineUnits_mkDoc _ (by
    intro l hl
    rcases List.mem_append.mp hl with h | h
    · exact (hpre l h).1
    rcases List.mem_cons.mp h with h | h
    · exact h ▸ hfo.1
    rcases List.mem_append.mp h with h | h
    · exact (hbody l h).1
    rcases List.mem_cons.mp h with h | h
    · exact h ▸ hfc.1
    · exact (hpost l h).1)]
  rw [List.map_append, List.map_cons, List.map_append, List.map_cons]
  rw [dropFencedUnits_block (pre.map (· ++ ['\n'])) (body.map (· ++ ['\n']))
    (post.map (· ++ ['\n'])) (fo ++ ['\n']) (fc ++ ['\n'])
    (by
      intro u hu
      obtain ⟨l, hl, rfl⟩ := List.mem_map.mp hu
      rw [startsFence_concat_nl]
      exact (hpre l hl).2)
    (by rw [startsFence_concat_nl]; exact hfo.2)
    (by
      intro u hu
      obtain ⟨l, hl, rfl⟩ := List.mem_map.mp hu
      rw [startsFence_concat_nl]
      exact (hbody l hl).2)
    (by rw [startsFence_concat_nl]; exact hfc.2)
    (by
      intro u hu
      obtain ⟨l, hl, rfl⟩ := List.mem_map.mp hu
      rw [startsFence_concat_nl]
      exact (hpost l hl).2)]
  show (pre.map (· ++ ['\n']) ++ post.map (· ++ ['\n'])).flatten = mkDoc (pre ++ post)
  unfold mkDoc
  rw [List.map_append]

theorem c4_remove_entirely_policy_witness :
    codeFenceStage CodeFencePolicy.remove
      (mkDoc (["a".toList] ++ "```python".toList ::
        (["x = 1".toList] ++ "```".toList :: ["b".toList]))) =
      mkDoc (["a".toList] ++ ["b".toList]) :=
  c4_remove_entirely_policy ["a".toList] ["x = 1".toList] ["b".toList]
    "```python".toList "```".toList
    (by decide) (by decide) (by decide) (by decide) (by decide)

/-- C6: the WhitespaceNormalizer replaces every maximal run of three or
more consecutive line breaks by exactly two line breaks and then trims
leading and trailing whitespace from the whole document; in particular
an interior run of four blank lines (five newlines) becomes exactly one
blank line (two newlines) at that position. -/
theorem c6_collapse_runs (a b : List Char) (n : Nat)
    (hn : 3 ≤ n) (ha : a.getLast? ≠ some '\n') (hb : b.head? ≠ some '\n') :
    subst mCollapse (a ++ (List.replicate n '\n' ++ b)) =
      subst mCollapse a ++ '\n' :: '\n' :: subst mCollapse b ∧
    ∀ t, normalize_whitespace t = pyStrip (subst mCollapse t) :=
  ⟨go_mCollapse_run a.length a (Nat.le_refl _) b n none hn ha hb, fun _ => rfl⟩

theorem c6_collapse_runs_witness :
    subst mCollapse ("A".toList ++ (List.replicate 5 '\n' ++ "B".toList)) =
      subst mCollapse "A".toList ++ '\n' :: '\n' :: subst mCollapse "B".toList ∧
    ∀ t, normalize_whitespace t = pyStrip (subst mCollapse t) :=
  c6_collapse_runs "A".toList "B".toList 5 (by decide) (by decide) (by decide)

/-- C7: MarkdownFormatStripper resolves bold before italic: the bold
substitution followed by the italic substitution (their order in
`clean_markdown_formatting`) rewrites `**w**` to `w` with both asterisk
pairs removed and no stray asterisk left behind; and the example
`# Title\n\nSome **bold** text.` with markdown stripping enabled yields
`Title\n\nSome bold text.`. -/
theorem c7_bold_before_italic (a w b : List Char)
    (ha : '*' ∉ a) (hw : '*' ∉ w) (hb : '*' ∉ b) (hne : w ≠ []) :
    subst (mItalic '*') (subst (mPair2 '*')
      (a ++ '*' :: '*' :: (w ++ '*' :: '*' :: b))) = a ++ (w ++ b) ∧
    process_text ("# Title\n\nSome **bold** text.".toList)
      { strip_code_blocks := false, strip_xml := false, strip_markdown := true } =
      "Title\n\nSome bold text.".toList :=
  ⟨bold_then_italic a w b ha hw hb hne, by decide⟩

theorem c7_bold_before_italic_witness :
    subst (mItalic '*') (subst (mPair2 '*')
      ("Some ".toList ++ '*' :: '*' :: ("bold".toList ++ '*' :: '*' :: " text.".toList))) =
      "Some ".toList ++ ("bold".toList ++ " text.".toList) ∧
    process_text ("# Title\n\nSome **bold** text.".toList)
      { strip_code_blocks := false, strip_xml := false, strip_markdown := true } =
      "Title\n\nSome bold text.".toList :=
  c7_bold_before_italic "Some ".toList "bold".toList " text.".toList
    (by decide) (by decide) (by decide) (by decide)

/-- C8: TagStripper removes every angle-bracket tag — self-closing tags
first, then any remaining `<...>` delimiter — and it removes opening and
closing tags independently rather than as matched pairs (their names
need not even agree), leaving the enclosed text intact; in particular
`<Tip>Note this</Tip>` yields `Note this`. -/
theorem c8_tags_removed_independently (nm1 nm2 m : List Char)
    (h1 : nm1 ≠ []) (h1gt : '>' ∉ nm1) (h1lt : '<' ∉ nm1) (h1sl : '/' ∉ nm1)
    (h2 : nm2 ≠ []) (h2gt : '>' ∉ nm2) (h2lt : '<' ∉ nm2) (h2sl : '/' ∉ nm2)
    (hmgt : '>' ∉ m) (hmlt : '<' ∉ m) :
    clean_xml_tags ('<' :: (nm1 ++ '>' :: (m ++ '<' :: ('/' :: nm2 ++ ['>'])))) = m ∧
    ∀ t, clean_xml_tags t = subst mTag (subst mSelfClose t) :=
  ⟨clean_xml_tags_pair nm1 nm2 m h1 h1gt h1lt h1sl h2 h2gt h2lt h2sl hmgt hmlt,
    fun _ => rfl⟩

theorem c8_tags_removed_independently_witness :
    clean_xml_tags ('<' :: ("Tip".toList ++ '>' ::
        ("Note this".toList ++ '<' :: ('/' :: "Tip".toList ++ ['>'])))) =
      "Note this".toList ∧
    ∀ t, clean_xml_tags t = subst mTag (subst mSelfClose t) :=
  c8_tags_removed_independently "Tip".toList "Tip".toList "Note this".toList
    (by decide) (by decide) (by decide) (by decide) (by decide) (by decide)
    (by decide) (by decide) (by decide) (by decide)

end MarkdownStripper
